import Mathlib

/-! ircgo: the IRC message codec and its line transport.

A shallow embedding of `irc.go` (package `irc`): `NewMessage` (the parser),
`Message.String` (the serializer) and `Conn.Write` / `Conn.Read`.

Conventions of the embedding.

* A Go `string` is a `List Char` (`Str`).  Every separator the program searches
  for (`" "`, `":"`, `"!"`, `"@"`) is a single ASCII byte, so positions counted
  in characters and positions counted in bytes cut a string at the same places.
* A Go run-time panic (slice or index out of range) is the outer `none` of an
  `Option`; the `nil` pointer that `NewMessage` may return is the inner `none`.
* The functions of package `strings` that the program calls are modelled from
  their documented behaviour, next to the program itself.
-/

namespace Irc

/-- A Go string, as its sequence of characters. -/
abbrev Str := List Char

/-! ## Package `strings` and `unicode` -/

/-- Go `unicode.IsSpace`: the characters with the Unicode White_Space property
(the table of the Go release the program was written for). -/
def isSpace (c : Char) : Bool :=
  let n := c.toNat
  (9 ≤ n && n ≤ 13) || n == 0x20 || n == 0x85 || n == 0xA0 || n == 0x1680 || n == 0x180E ||
  (0x2000 ≤ n && n ≤ 0x200A) || n == 0x2028 || n == 0x2029 || n == 0x202F || n == 0x205F ||
  n == 0x3000

/-- Go `strings.TrimSpace`: drop leading and trailing white space. -/
def TrimSpace (s : Str) : Str :=
  ((s.dropWhile isSpace).reverse.dropWhile isSpace).reverse

/-- Go `strings.HasPrefix`. -/
def HasPrefix (s p : Str) : Bool :=
  p.isPrefixOf s

/-- Cut `s` at the first occurrence of `sep`: the text before it and the text
after it, or `none` when `sep` does not occur. -/
def cut (sep : Char) : Str → Option (Str × Str)
  | [] => none
  | c :: cs =>
    if c = sep then some ([], cs)
    else
      match cut sep cs with
      | none => none
      | some (a, b) => some (c :: a, b)

/-- Go `strings.Index(s, sep)` for a one-byte `sep`: the position of the first
occurrence, or `-1`. -/
def Index (s : Str) (sep : Char) : Int :=
  match cut sep s with
  | none => -1
  | some (a, _) => (a.length : Int)

/-- Go `strings.Count(s, sep)` for a one-byte `sep`. -/
def Count (s : Str) (sep : Char) : Nat :=
  s.count sep

/-- The loop of Go `strings.Split`: at most `n` pieces, the last one being the
unsplit remainder. -/
def splitN (sep : Char) : Nat → Str → List Str
  | 0, _ => []
  | 1, s => [s]
  | n + 2, s =>
    match cut sep s with
    | none => [s]
    | some (a, b) => a :: splitN sep (n + 1) b

/-- Go `strings.Split(s, sep, n)` (the three-argument form of the release the
program was written for) for a one-byte `sep`; every call in the program has
`n ≥ 1`. -/
def Split (s : Str) (sep : Char) (n : Nat) : List Str :=
  splitN sep n s

/-- The loop of Go `strings.Fields`: `cur` is the field being read. -/
def fieldsAux : Str → Str → List Str
  | cur, [] => if cur = [] then [] else [cur]
  | cur, c :: cs =>
    if isSpace c then
      if cur = [] then fieldsAux [] cs else cur :: fieldsAux [] cs
    else fieldsAux (cur ++ [c]) cs

/-- Go `strings.Fields`: the maximal runs of non-space characters. -/
def Fields (s : Str) : List Str :=
  fieldsAux [] s

/-- Go `strings.Join`. -/
def Join : List Str → Str → Str
  | [], _ => []
  | [a], _ => a
  | a :: b :: rest, sep => a ++ sep ++ Join (b :: rest) sep

/-- The index expression `a[i]`: `none` is the out-of-range panic. -/
def index (a : List Str) (i : Nat) : Option Str :=
  a.get? i

/-- The slice expression `s[lo:]`: `none` is the out-of-range panic. -/
def sliceFrom (s : Str) (lo : Nat) : Option Str :=
  if lo ≤ s.length then some (s.drop lo) else none

/-- The slice expression `s[lo:hi]`: `none` is the out-of-range panic. -/
def slice (s : Str) (lo hi : Int) : Option Str :=
  if 0 ≤ lo ∧ lo ≤ hi ∧ hi ≤ (s.length : Int) then some ((s.take hi.toNat).drop lo.toNat)
  else none

/-! ## The message codec -/

/-- The struct `Message` (irc.go, lines 36-44). -/
structure Message where
  Command : Str
  Server : Str
  Nick : Str
  User : Str
  Host : Str
  Args : List Str
  raw : Str
  deriving DecidableEq, Repr

/-- Lines 59-74 of `NewMessage`: the raw line cut into prefix, command and
argument segment; the inner `none` is the `return nil`. -/
def NewMessage.pieces (raw : Str) : Option (Option (Str × Str × Str)) :=
  if HasPrefix raw [':'] then
    (sliceFrom raw 1).bind fun rest =>
      let pieces := Split rest ' ' 3
      if pieces.length < 2 then some none
      else
        (index pieces 0).bind fun pfx =>
        (index pieces 1).bind fun command =>
        (if pieces.length > 2 then index pieces 2 else some []).bind fun args =>
          some (some (pfx, command, args))
  else
    let pieces := Split raw ' ' 2
    (index pieces 0).bind fun command =>
    (if pieces.length > 1 then index pieces 1 else some []).bind fun args =>
      some (some ([], command, args))

/-- Lines 77-99 of `NewMessage`: the prefix decomposed into
`(server, nick, user, host)`. -/
def NewMessage.origin (pfx : Str) : Option (Str × Str × Str × Str) :=
  if pfx ≠ [] then
    if Index pfx '!' > 0 then
      let pieces := Split pfx '!' 2
      (index pieces 0).bind fun nick =>
      (index pieces 1).bind fun userhost =>
        if Index userhost '@' > 0 then
          let pieces := Split userhost '@' 2
          (index pieces 0).bind fun user =>
          (index pieces 1).bind fun host =>
            some ([], nick, user, host)
        else some ([], nick, userhost, [])
    else if Index pfx '@' > 0 then
      let pieces := Split pfx '@' 2
      (index pieces 0).bind fun nick =>
      (index pieces 1).bind fun host =>
        some ([], nick, [], host)
    else some (pfx, pfx, [], [])
  else some ([], [], [], [])

/-- Lines 101-110 of `NewMessage`: the argument segment split into `Args`. -/
def NewMessage.splitArgs (args : Str) : Option (List Str) :=
  if args.length > 0 then
    let trailingPos := Index args ':'
    if trailingPos ≥ 0 then
      (slice args 0 trailingPos).bind fun head =>
        let nspaces := Count head ' '
        some (Split args ' ' (nspaces + 1))
    else some (Fields args)
  else some []

/-- The function `NewMessage` (irc.go, lines 56-121). -/
def NewMessage (raw : Str) : Option (Option Message) :=
  let raw := TrimSpace raw
  (NewMessage.pieces raw).bind fun r =>
    match r with
    | none => some none
    | some (pfx, command, args) =>
      (NewMessage.origin pfx).bind fun o =>
      (NewMessage.splitArgs args).bind fun splitArgs =>
        some (some
          { raw := raw
            Command := command
            Server := o.1
            Nick := o.2.1
            User := o.2.2.1
            Host := o.2.2.2
            Args := splitArgs })

/-- The method `(*Message).String` (irc.go, lines 123-141). -/
def Message.String (message : Message) : Str :=
  let raw : Str := []
  let raw :=
    if message.Server ≠ [] then raw ++ ([':'] ++ message.Server ++ [' '])
    else if message.Nick ≠ [] then
      let raw := raw ++ ([':'] ++ message.Nick)
      let raw := if message.User ≠ [] then raw ++ (['!'] ++ message.User) else raw
      let raw := if message.Host ≠ [] then raw ++ (['@'] ++ message.Host) else raw
      raw ++ [' ']
    else raw
  let raw := raw ++ message.Command
  if message.Args.length > 0 then raw ++ ([' '] ++ Join message.Args [' ']) else raw

/-! ## The line transport -/

/-- Go `os.Error` values: `os.EOF` and any other error. -/
inductive Error where
  | EOF
  | other (code : Nat)
  deriving DecidableEq, Repr

/-- The three methods of `bufio.ReadWriter` that `Conn` calls, as a state
machine over the state `σ` of the buffered stream and the connection under it.
Each method returns its Go results and the next state; a `nil` error is `none`. -/
structure ReadWriter (σ : Type) where
  WriteString : σ → Str → (Nat × Option Error) × σ
  Flush : σ → Option Error × σ
  ReadString : σ → Char → (Str × Option Error) × σ

/-- The struct `Conn` (irc.go, lines 161-164): the buffered stream and the
connection it wraps. -/
structure Conn (σ : Type) where
  stream : ReadWriter σ
  rwc : σ

/-- The method `(*Conn).Write` (irc.go, lines 184-190): the returned error is
the one of `WriteString`; the result of `Flush` is assigned to `_`. -/
def Conn.Write {σ : Type} (conn : Conn σ) (message : Message) : Option Error × Conn σ :=
  let raw := message.String ++ ['\r', '\n']
  let w := conn.stream.WriteString conn.rwc raw
  let err := w.1.2
  let f := conn.stream.Flush w.2
  (err, { conn with rwc := f.2 })

/-- The method `(*Conn).Read` (irc.go, lines 192-199): the results are
`(message, err)`; the outer `none` is a panic inside `NewMessage`. -/
def Conn.Read {σ : Type} (conn : Conn σ) : Option ((Option Message × Option Error) × Conn σ) :=
  let r := conn.stream.ReadString conn.rwc '\n'
  let raw := r.1.1
  let err := r.1.2
  if err = none then
    (NewMessage raw).bind fun message => some ((message, err), { conn with rwc := r.2 })
  else some ((none, err), { conn with rwc := r.2 })

/-- An in-memory duplex byte stream: `incoming` are the bytes the peer has sent
and the reader has not yet consumed, `pending` the bytes buffered by the
writer, `sent` the bytes flushed to the peer, and `writeErr` the error the
connection reports when the buffer is flushed to it (`none` when healthy). -/
structure Pipe where
  incoming : Str
  pending : Str
  sent : Str
  writeErr : Option Error
  deriving DecidableEq, Repr

/-- The buffered stream over a `Pipe`: `WriteString` buffers, `Flush` hands the
buffer to the connection, `ReadString` returns the text up to and including the
first delimiter, or what is left together with `os.EOF`. -/
def Pipe.stream : ReadWriter Pipe where
  WriteString := fun p s => ((s.length, none), { p with pending := p.pending ++ s })
  Flush := fun p =>
    match p.writeErr with
    | some e => (some e, p)
    | none => (none, { p with sent := p.sent ++ p.pending, pending := [] })
  ReadString := fun p delim =>
    match cut delim p.incoming with
    | some (a, b) => ((a ++ [delim], none), { p with incoming := b })
    | none => ((p.incoming, some Error.EOF), { p with incoming := [] })

/-- The line `cmd tok1 ... tokN` after the command: every token preceded by a
single space. -/
def spaced : List Str → Str
  | [] => []
  | t :: ts => ' ' :: t ++ spaced ts

/-- Whether the first character of `s` is white space. -/
def startsWithSpace (s : Str) : Bool :=
  match s.head? with
  | some c => isSpace c
  | none => false

/-- Whether the last character of `s` is white space. -/
def endsWithSpace (s : Str) : Bool :=
  match s.getLast? with
  | some c => isSpace c
  | none => false

/-- The middle tokens of an argument segment, each followed by a single space. -/
def middles : List Str → Str
  | [] => []
  | t :: ts => t ++ ' ' :: middles ts

/-- The prefix that the specification of serialize prescribes: `":" + Server + " "`
when `Server` is non-empty; otherwise `":" + Nick`, then `"!" + User` when `User`
is non-empty, then `"@" + Host` when `Host` is non-empty, then a space, when
`Nick` is non-empty; otherwise nothing. -/
def Message.specPrefix (m : Message) : Str :=
  if m.Server ≠ [] then ':' :: m.Server ++ [' ']
  else if m.Nick ≠ [] then
    ':' :: m.Nick ++ (if m.User ≠ [] then '!' :: m.User else []) ++
      (if m.Host ≠ [] then '@' :: m.Host else []) ++ [' ']
  else []

/-- The argument text that the specification of serialize prescribes: a space
followed by the arguments joined by single spaces when `Args` is non-empty,
nothing otherwise. -/
def Message.specArgs (m : Message) : Str :=
  if m.Args ≠ [] then ' ' :: [' '].intercalate m.Args else []

/-- The text that `Message.String` writes between the leading ':' and the space
before the command, from the four origin fields. -/
def prefixText (server nick user host : Str) : Str :=
  if server ≠ [] then server
  else if nick ≠ [] then
    nick ++ (if user ≠ [] then '!' :: user else []) ++ (if host ≠ [] then '@' :: host else [])
  else []

/-- A buffered stream whose writer has recorded the error of an earlier failed
write: like `bufio.Writer`, it returns that error from every later
`WriteString` and `Flush`; its reader is at the end of the stream.  The state
is the recorded error. -/
def failedStream : ReadWriter Error where
  WriteString := fun e _ => ((0, some e), e)
  Flush := fun e => (some e, e)
  ReadString := fun e _ => (([], some Error.EOF), e)

/-- The text after the first space of `s`, empty when `s` has no space. -/
def afterSpace (s : Str) : Str :=
  (s.dropWhile (fun c => c != ' ')).tail

/-- The argument segment of a line as the specification words it: in the
trimmed line, the text after the space that follows the command, the command
being the first token of a line without a leading ':' and the second token of a
line with one. -/
def argSegment (raw : Str) : Str :=
  if HasPrefix (TrimSpace raw) [':'] then afterSpace (afterSpace (TrimSpace raw).tail)
  else afterSpace (TrimSpace raw)

/-! ## Basic facts about the string functions -/

theorem cut_eq_none {sep : Char} {s : Str} : cut sep s = none ↔ sep ∉ s := by
  induction s with
  | nil => simp [cut]
  | cons c cs ih =>
    by_cases h : c = sep
    · simp [cut, h]
    · have h2 : ¬ sep = c := fun e => h e.symm
      cases hc : cut sep cs with
      | none => simp [cut, h, h2, hc, ih.mp hc]
      | some ab =>
        have : sep ∈ cs := by
          by_contra hn
          rw [ih.mpr hn] at hc
          cases hc
        simp [cut, h, hc, this]

theorem cut_eq_some {sep : Char} {s a b : Str} :
    cut sep s = some (a, b) ↔ s = a ++ sep :: b ∧ sep ∉ a := by
  induction s generalizing a b with
  | nil => simp [cut]
  | cons c cs ih =>
    by_cases h : c = sep
    · subst h
      simp only [cut, if_true, Option.some.injEq, Prod.mk.injEq]
      constructor
      · rintro ⟨rfl, rfl⟩
        simp
      · rintro ⟨h1, h2⟩
        cases a with
        | nil => simp at h1; simp [h1]
        | cons x xs =>
          simp at h1
          simp [h1.1] at h2
    · simp only [cut, h, if_false]
      cases hc : cut sep cs with
      | none =>
        simp only [false_iff, reduceCtorEq]
        rintro ⟨h1, h2⟩
        cases a with
        | nil => simp at h1; exact h h1.1
        | cons x xs =>
          simp at h1
          have : sep ∈ cs := by rw [h1.2]; simp
          exact (cut_eq_none.mp hc) this
      | some ab =>
        obtain ⟨a0, b0⟩ := ab
        have h0 := ih.mp hc
        simp only [Option.some.injEq, Prod.mk.injEq]
        constructor
        · rintro ⟨rfl, rfl⟩
          refine ⟨by simp [h0.1], ?_⟩
          simp only [List.mem_cons, not_or]
          exact ⟨fun e => h e.symm, h0.2⟩
        · rintro ⟨h1, h2⟩
          cases a with
          | nil => simp at h1; exact absurd h1.1 h
          | cons x xs =>
            simp at h1
            simp only [List.mem_cons, not_or] at h2
            have := ih.mpr ⟨h1.2, h2.2⟩
            rw [hc] at this
            simp only [Option.some.injEq, Prod.mk.injEq] at this
            simp [h1.1, this.1, this.2]

theorem cut_append {sep : Char} {a : Str} (b : Str) (h : sep ∉ a) :
    cut sep (a ++ sep :: b) = some (a, b) :=
  cut_eq_some.mpr ⟨rfl, h⟩

theorem cut_of_not_mem {sep : Char} {s : Str} (h : sep ∉ s) : cut sep s = none :=
  cut_eq_none.mpr h

theorem splitN_succ_ne_nil (sep : Char) (n : Nat) (s : Str) : splitN sep (n + 1) s ≠ [] := by
  cases n with
  | zero => simp [splitN]
  | succ n =>
    cases h : cut sep s with
    | none => simp [splitN, h]
    | some ab => simp [splitN, h]

theorem splitN_of_not_mem {sep : Char} {s : Str} (n : Nat) (h : sep ∉ s) :
    splitN sep (n + 1) s = [s] := by
  cases n with
  | zero => simp [splitN]
  | succ n => simp [splitN, cut_of_not_mem h]

theorem splitN_append {sep : Char} {a : Str} (n : Nat) (b : Str) (h : sep ∉ a) :
    splitN sep (n + 2) (a ++ sep :: b) = a :: splitN sep (n + 1) b := by
  simp [splitN, cut_append b h]

theorem Join_cons_cons (a b : Str) (rest : List Str) (sep : Str) :
    Join (a :: b :: rest) sep = a ++ sep ++ Join (b :: rest) sep := rfl

theorem Join_cons_of_ne_nil (a : Str) {l : List Str} (sep : Str) (h : l ≠ []) :
    Join (a :: l) sep = a ++ sep ++ Join l sep := by
  cases l with
  | nil => exact absurd rfl h
  | cons b rest => rfl

theorem Join_splitN (sep : Char) (n : Nat) (s : Str) :
    Join (splitN sep (n + 1) s) [sep] = s := by
  induction n generalizing s with
  | zero => simp [splitN, Join]
  | succ n ih =>
    cases h : cut sep s with
    | none => simp [splitN, h, Join]
    | some ab =>
      obtain ⟨a, b⟩ := ab
      have hs := (cut_eq_some.mp h).1
      simp only [splitN, h]
      rw [Join_cons_of_ne_nil a [sep] (splitN_succ_ne_nil sep n b), ih b, hs]
      simp

/-! ## The three blocks of `NewMessage`, case by case -/

theorem Index_append {sep : Char} {a : Str} (b : Str) (h : sep ∉ a) :
    Index (a ++ sep :: b) sep = (a.length : Int) := by
  simp [Index, cut_append b h]

theorem Index_of_not_mem {sep : Char} {s : Str} (h : sep ∉ s) : Index s sep = -1 := by
  simp [Index, cut_of_not_mem h]

theorem Index_cases (sep : Char) (s : Str) :
    (sep ∉ s ∧ Index s sep = -1) ∨
      ∃ a b, s = a ++ sep :: b ∧ sep ∉ a ∧ Index s sep = (a.length : Int) := by
  cases h : cut sep s with
  | none => exact Or.inl ⟨cut_eq_none.mp h, by simp [Index, h]⟩
  | some ab =>
    obtain ⟨a, b⟩ := ab
    have := cut_eq_some.mp h
    exact Or.inr ⟨a, b, this.1, this.2, by simp [Index, h]⟩

theorem pieces_colon (rest : Str) :
    NewMessage.pieces (':' :: rest) =
      match cut ' ' rest with
      | none => some none
      | some (p, r) =>
        match cut ' ' r with
        | none => some (some (p, r, []))
        | some (c, a) => some (some (p, c, a)) := by
  cases h : cut ' ' rest with
  | none => simp [NewMessage.pieces, HasPrefix, sliceFrom, Split, splitN, h]
  | some pr =>
    obtain ⟨p, r⟩ := pr
    cases h2 : cut ' ' r with
    | none => simp [NewMessage.pieces, HasPrefix, sliceFrom, Split, splitN, h, h2, index]
    | some ca =>
      obtain ⟨c, a⟩ := ca
      simp [NewMessage.pieces, HasPrefix, sliceFrom, Split, splitN, h, h2, index]

theorem pieces_plain {t : Str} (ht : HasPrefix t [':'] = false) :
    NewMessage.pieces t =
      match cut ' ' t with
      | none => some (some ([], t, []))
      | some (c, a) => some (some ([], c, a)) := by
  cases h : cut ' ' t with
  | none => simp [NewMessage.pieces, ht, Split, splitN, h, index]
  | some ca =>
    obtain ⟨c, a⟩ := ca
    simp [NewMessage.pieces, ht, Split, splitN, h, index]

theorem origin_nil : NewMessage.origin [] = some ([], [], [], []) := by
  simp [NewMessage.origin]

theorem origin_user_host {nick user : Str} (host : Str) (hn : nick ≠ []) (hu : user ≠ [])
    (h1 : '!' ∉ nick) (h2 : '@' ∉ user) :
    NewMessage.origin (nick ++ '!' :: (user ++ '@' :: host)) = some ([], nick, user, host) := by
  have l1 : (0 : Int) < (nick.length : Int) := by
    have := List.length_pos.mpr hn
    omega
  have l2 : (0 : Int) < (user.length : Int) := by
    have := List.length_pos.mpr hu
    omega
  simp [NewMessage.origin, Index_append _ h1, Index_append _ h2, l1, l2, Split, splitN,
    cut_append _ h1, cut_append _ h2, index]

theorem origin_user {nick : Str} (userhost : Str) (hn : nick ≠ []) (h1 : '!' ∉ nick)
    (h2 : ¬ Index userhost '@' > 0) :
    NewMessage.origin (nick ++ '!' :: userhost) = some ([], nick, userhost, []) := by
  have l1 : (0 : Int) < (nick.length : Int) := by
    have := List.length_pos.mpr hn
    omega
  simp only [gt_iff_lt] at h2
  simp [NewMessage.origin, Index_append _ h1, l1, Split, splitN, cut_append _ h1, index, h2]

theorem origin_host {nick : Str} (host : Str) (hn : nick ≠ []) (h1 : '@' ∉ nick)
    (h2 : ¬ Index (nick ++ '@' :: host) '!' > 0) :
    NewMessage.origin (nick ++ '@' :: host) = some ([], nick, [], host) := by
  have l1 : (0 : Int) < (nick.length : Int) := by
    have := List.length_pos.mpr hn
    omega
  simp only [gt_iff_lt] at h2
  simp [NewMessage.origin, Index_append _ h1, l1, Split, splitN, cut_append _ h1, index, h2]

theorem origin_server {pfx : Str} (h1 : ¬ Index pfx '!' > 0) (h2 : ¬ Index pfx '@' > 0) :
    NewMessage.origin pfx = some (pfx, pfx, [], []) := by
  simp only [gt_iff_lt] at h1 h2
  by_cases h : pfx = []
  · subst h
    exact origin_nil
  · simp [NewMessage.origin, h, h1, h2]

theorem slice_append (a b : Str) : slice (a ++ b) 0 (a.length : Int) = some a := by
  simp [slice]

theorem splitArgs_nil : NewMessage.splitArgs [] = some [] := by
  simp [NewMessage.splitArgs]

theorem splitArgs_colon {a : Str} (b : Str) (h : ':' ∉ a) :
    NewMessage.splitArgs (a ++ ':' :: b) = some (splitN ' ' (a.count ' ' + 1) (a ++ ':' :: b)) := by
  simp [NewMessage.splitArgs, Index_append b h, slice_append, Count, Split]

theorem splitArgs_fields {args : Str} (h : ':' ∉ args) :
    NewMessage.splitArgs args = some (Fields args) := by
  by_cases h0 : args = []
  · subst h0
    simp [NewMessage.splitArgs, Fields, fieldsAux]
  · have : 0 < args.length := List.length_pos.mpr h0
    simp [NewMessage.splitArgs, this, Index_of_not_mem h]

theorem isSpace_space : isSpace ' ' = true := by decide

theorem endsWithSpace_append (a : Str) {b : Str} (h : b ≠ []) :
    endsWithSpace (a ++ b) = endsWithSpace b := by
  simp [endsWithSpace, List.getLast?_append_of_ne_nil a h]

theorem endsWithSpace_cons (c : Char) {b : Str} (h : b ≠ []) :
    endsWithSpace (c :: b) = endsWithSpace b :=
  endsWithSpace_append [c] h

theorem startsWithSpace_append {a : Str} (b : Str) (h : a ≠ []) :
    startsWithSpace (a ++ b) = startsWithSpace a := by
  cases a with
  | nil => exact absurd rfl h
  | cons x xs => simp [startsWithSpace]

theorem dropWhile_of_not_startsWithSpace {s : Str} (h : startsWithSpace s = false) :
    s.dropWhile isSpace = s := by
  cases s with
  | nil => rfl
  | cons x xs =>
    simp [startsWithSpace] at h
    simp [List.dropWhile, h]

theorem startsWithSpace_dropWhile (s : Str) : startsWithSpace (s.dropWhile isSpace) = false := by
  induction s with
  | nil => rfl
  | cons x xs ih =>
    by_cases h : isSpace x = true
    · simp [List.dropWhile, h, ih]
    · simp at h
      simp [List.dropWhile, h, startsWithSpace]

theorem endsWithSpace_reverse (s : Str) : endsWithSpace s.reverse = startsWithSpace s := by
  simp [endsWithSpace, startsWithSpace]

theorem startsWithSpace_reverse (s : Str) : startsWithSpace s.reverse = endsWithSpace s := by
  simp [endsWithSpace, startsWithSpace]

theorem TrimSpace_eq_self {s : Str} (h1 : startsWithSpace s = false)
    (h2 : endsWithSpace s = false) : TrimSpace s = s := by
  unfold TrimSpace
  rw [dropWhile_of_not_startsWithSpace h1,
    dropWhile_of_not_startsWithSpace (by rw [startsWithSpace_reverse]; exact h2)]
  simp

theorem endsWithSpace_TrimSpace (s : Str) : endsWithSpace (TrimSpace s) = false := by
  unfold TrimSpace
  rw [endsWithSpace_reverse]
  exact startsWithSpace_dropWhile _

theorem startsWithSpace_rdrop {s : Str} (h : startsWithSpace s = false) :
    startsWithSpace (s.reverse.dropWhile isSpace).reverse = false := by
  have hp : (s.reverse.dropWhile isSpace).reverse <+: s := List.rdropWhile_prefix isSpace s
  obtain ⟨r, hr⟩ := hp
  by_cases hn : (s.reverse.dropWhile isSpace).reverse = []
  · rw [hn]; rfl
  · rw [← hr, startsWithSpace_append r hn] at h
    exact h

theorem startsWithSpace_TrimSpace (s : Str) : startsWithSpace (TrimSpace s) = false :=
  startsWithSpace_rdrop (startsWithSpace_dropWhile s)

theorem TrimSpace_TrimSpace (s : Str) : TrimSpace (TrimSpace s) = TrimSpace s :=
  TrimSpace_eq_self (startsWithSpace_TrimSpace s) (endsWithSpace_TrimSpace s)

/-! ## `Fields` and `Join` -/

theorem fieldsAux_append_token (cur rest : Str) {tok : Str}
    (h : ∀ c ∈ tok, isSpace c = false) :
    fieldsAux cur (tok ++ rest) = fieldsAux (cur ++ tok) rest := by
  induction tok generalizing cur with
  | nil => simp
  | cons x xs ih =>
    have hx : isSpace x = false := h x (List.mem_cons_self _ _)
    have hxs : ∀ c ∈ xs, isSpace c = false := fun c hc => h c (List.mem_cons_of_mem _ hc)
    have e : fieldsAux cur (x :: (xs ++ rest)) = fieldsAux (cur ++ [x]) (xs ++ rest) := by
      simp [fieldsAux, hx]
    rw [List.cons_append, e, ih _ hxs]
    simp

theorem fieldsAux_nil_right (cur : Str) : fieldsAux cur [] = if cur = [] then [] else [cur] := by
  simp [fieldsAux]

theorem fieldsAux_space (cur rest : Str) :
    fieldsAux cur (' ' :: rest) =
      if cur = [] then fieldsAux [] rest else cur :: fieldsAux [] rest := by
  simp [fieldsAux, isSpace_space]

theorem fieldsAux_spaced (cur : Str) (toks : List Str)
    (h : ∀ t ∈ toks, t ≠ [] ∧ ∀ c ∈ t, isSpace c = false) :
    fieldsAux cur (spaced toks) = if cur = [] then toks else cur :: toks := by
  induction toks generalizing cur with
  | nil => simp [spaced, fieldsAux]
  | cons t ts ih =>
    have ht := h t (List.mem_cons_self _ _)
    have hts : ∀ u ∈ ts, u ≠ [] ∧ ∀ c ∈ u, isSpace c = false :=
      fun u hu => h u (List.mem_cons_of_mem _ hu)
    have key : fieldsAux [] (t ++ spaced ts) = t :: ts := by
      rw [fieldsAux_append_token [] (spaced ts) ht.2, ih _ hts]
      simp [ht.1]
    have e : spaced (t :: ts) = ' ' :: (t ++ spaced ts) := rfl
    rw [e, fieldsAux_space, key]

theorem Join_eq_spaced (t : Str) (ts : List Str) : Join (t :: ts) [' '] = t ++ spaced ts := by
  induction ts generalizing t with
  | nil => simp [Join, spaced]
  | cons u us ih =>
    rw [Join_cons_cons, ih u]
    simp [spaced]

theorem Fields_Join (toks : List Str)
    (h : ∀ t ∈ toks, t ≠ [] ∧ ∀ c ∈ t, isSpace c = false) :
    Fields (Join toks [' ']) = toks := by
  cases toks with
  | nil => simp [Join, Fields, fieldsAux]
  | cons t ts =>
    have ht := h t (List.mem_cons_self _ _)
    have hts : ∀ u ∈ ts, u ≠ [] ∧ ∀ c ∈ u, isSpace c = false :=
      fun u hu => h u (List.mem_cons_of_mem _ hu)
    rw [Join_eq_spaced, Fields, fieldsAux_append_token [] (spaced ts) ht.2, fieldsAux_spaced _ _ hts]
    simp [ht.1]

theorem fieldsAux_mem {cur s tok : Str} (hcur : ∀ c ∈ cur, isSpace c = false)
    (h : tok ∈ fieldsAux cur s) :
    tok ≠ [] ∧ ∀ c ∈ tok, isSpace c = false ∧ (c ∈ cur ∨ c ∈ s) := by
  induction s generalizing cur with
  | nil =>
    by_cases hc : cur = []
    · simp [fieldsAux, hc] at h
    · simp only [fieldsAux, hc, if_false, List.mem_singleton] at h
      subst h
      exact ⟨hc, fun c hm => ⟨hcur c hm, Or.inl hm⟩⟩
  | cons x xs ih =>
    have hnil : ∀ c ∈ ([] : Str), isSpace c = false := fun c hc => absurd hc (List.not_mem_nil c)
    by_cases hx : isSpace x = true
    · by_cases hc : cur = []
      · simp only [fieldsAux, hx, hc, if_true] at h
        obtain ⟨h1, h2⟩ := ih hnil h
        refine ⟨h1, fun c hm => ⟨(h2 c hm).1, ?_⟩⟩
        rcases (h2 c hm).2 with h3 | h3
        · exact absurd h3 (List.not_mem_nil c)
        · exact Or.inr (List.mem_cons_of_mem _ h3)
      · simp only [fieldsAux, hx, hc, if_true, if_false, List.mem_cons] at h
        rcases h with h | h
        · subst h
          exact ⟨hc, fun c hm => ⟨hcur c hm, Or.inl hm⟩⟩
        · obtain ⟨h1, h2⟩ := ih hnil h
          refine ⟨h1, fun c hm => ⟨(h2 c hm).1, ?_⟩⟩
          rcases (h2 c hm).2 with h3 | h3
          · exact absurd h3 (List.not_mem_nil c)
          · exact Or.inr (List.mem_cons_of_mem _ h3)
    · have hx2 : isSpace x = false := by simpa using hx
      simp only [fieldsAux, hx2, Bool.false_eq_true, if_false] at h
      have hcur2 : ∀ c ∈ cur ++ [x], isSpace c = false := by
        intro c hc
        rcases List.mem_append.mp hc with h3 | h3
        · exact hcur c h3
        · rw [List.mem_singleton.mp h3]; exact hx2
      obtain ⟨h1, h2⟩ := ih hcur2 h
      refine ⟨h1, fun c hm => ⟨(h2 c hm).1, ?_⟩⟩
      rcases (h2 c hm).2 with h3 | h3
      · rcases List.mem_append.mp h3 with h4 | h4
        · exact Or.inl h4
        · rw [List.mem_singleton.mp h4]; exact Or.inr (List.mem_cons_self _ _)
      · exact Or.inr (List.mem_cons_of_mem _ h3)

theorem Fields_mem {s tok : Str} (h : tok ∈ Fields s) :
    tok ≠ [] ∧ ∀ c ∈ tok, isSpace c = false ∧ c ∈ s := by
  have := @fieldsAux_mem [] s tok (fun c hc => absurd hc (List.not_mem_nil c)) h
  refine ⟨this.1, fun c hc => ⟨(this.2 c hc).1, ?_⟩⟩
  rcases (this.2 c hc).2 with h3 | h3
  · exact absurd h3 (List.not_mem_nil c)
  · exact h3

theorem fieldsAux_ne_nil (cur : Str) {s : Str} (hs : s ≠ []) (he : endsWithSpace s = false) :
    fieldsAux cur s ≠ [] := by
  induction s generalizing cur with
  | nil => exact absurd rfl hs
  | cons x xs ih =>
    by_cases hxs : xs = []
    · subst hxs
      have hx : isSpace x = false := by simpa [endsWithSpace] using he
      simp [fieldsAux, hx]
    · have he2 : endsWithSpace xs = false := by rwa [endsWithSpace_cons x hxs] at he
      by_cases hx : isSpace x = true
      · by_cases hc : cur = []
        · simp only [fieldsAux, hx, hc, if_true]
          exact ih [] hxs he2
        · simp [fieldsAux, hx, hc]
      · have hx2 : isSpace x = false := by simpa using hx
        simp only [fieldsAux, hx2, Bool.false_eq_true, if_false]
        exact ih _ hxs he2

theorem Fields_ne_nil {s : Str} (hs : s ≠ []) (he : endsWithSpace s = false) : Fields s ≠ [] :=
  fieldsAux_ne_nil [] hs he

theorem mem_Join {l : List Str} {sep : Str} {c : Char} (h : c ∈ Join l sep) :
    c ∈ sep ∨ ∃ t ∈ l, c ∈ t := by
  induction l with
  | nil => simp [Join] at h
  | cons a rest ih =>
    cases rest with
    | nil =>
      simp only [Join] at h
      exact Or.inr ⟨a, List.mem_cons_self _ _, h⟩
    | cons b rest2 =>
      rw [Join_cons_cons] at h
      rcases List.mem_append.mp h with h1 | h1
      · rcases List.mem_append.mp h1 with h2 | h2
        · exact Or.inr ⟨a, List.mem_cons_self _ _, h2⟩
        · exact Or.inl h2
      · rcases ih h1 with h2 | ⟨t, ht, hc⟩
        · exact Or.inl h2
        · exact Or.inr ⟨t, List.mem_cons_of_mem _ ht, hc⟩

theorem endsWithSpace_Join {l : List Str} (hl : l ≠ [])
    (h : ∀ t ∈ l, t ≠ [] ∧ ∀ c ∈ t, isSpace c = false) :
    endsWithSpace (Join l [' ']) = false := by
  induction l with
  | nil => exact absurd rfl hl
  | cons a rest ih =>
    have ha := h a (List.mem_cons_self _ _)
    cases rest with
    | nil =>
      simp only [Join]
      have hlast : ∃ c, a.getLast? = some c ∧ c ∈ a := by
        refine ⟨a.getLast ha.1, List.getLast?_eq_getLast _ ha.1, List.getLast_mem ha.1⟩
      obtain ⟨c, hc1, hc2⟩ := hlast
      simp [endsWithSpace, hc1, ha.2 c hc2]
    | cons b rest2 =>
      have hr : ∀ t ∈ b :: rest2, t ≠ [] ∧ ∀ c ∈ t, isSpace c = false :=
        fun t ht => h t (List.mem_cons_of_mem _ ht)
      have hb := hr b (List.mem_cons_self _ _)
      have hne : Join (b :: rest2) [' '] ≠ [] := by
        rw [Join_eq_spaced]
        simp [hb.1]
      rw [Join_cons_cons, endsWithSpace_append _ hne]
      exact ih (by simp) hr

/-! ## `NewMessage` never panics -/

theorem HasPrefix_colon {t : Str} : HasPrefix t [':'] = true ↔ ∃ rest, t = ':' :: rest := by
  cases t with
  | nil => simp [HasPrefix]
  | cons x xs =>
    simp only [HasPrefix, List.isPrefixOf, Bool.and_true, beq_iff_eq, List.cons.injEq,
      and_true, exists_eq_right']
    exact eq_comm

theorem Index_pos {sep : Char} {s : Str} (h : Index s sep > 0) :
    ∃ a b, a ≠ [] ∧ sep ∉ a ∧ s = a ++ sep :: b := by
  rcases Index_cases sep s with ⟨_, h1⟩ | ⟨a, b, h1, h2, h3⟩
  · rw [h1] at h
    exact absurd h (by decide)
  · refine ⟨a, b, ?_, h2, h1⟩
    intro ha
    rw [h3, ha] at h
    exact absurd h (by decide)

theorem origin_cases (pfx : Str) :
    (∃ nick user host, nick ≠ [] ∧ user ≠ [] ∧ '!' ∉ nick ∧ '@' ∉ user ∧
        pfx = nick ++ '!' :: (user ++ '@' :: host) ∧
        NewMessage.origin pfx = some ([], nick, user, host)) ∨
    (∃ nick userhost, nick ≠ [] ∧ '!' ∉ nick ∧ ¬ Index userhost '@' > 0 ∧
        pfx = nick ++ '!' :: userhost ∧
        NewMessage.origin pfx = some ([], nick, userhost, [])) ∨
    (∃ nick host, nick ≠ [] ∧ '@' ∉ nick ∧ ¬ Index pfx '!' > 0 ∧
        pfx = nick ++ '@' :: host ∧
        NewMessage.origin pfx = some ([], nick, [], host)) ∨
    (¬ Index pfx '!' > 0 ∧ ¬ Index pfx '@' > 0 ∧
        NewMessage.origin pfx = some (pfx, pfx, [], [])) := by
  by_cases h1 : Index pfx '!' > 0
  · obtain ⟨nick, uh, hn, hb, rfl⟩ := Index_pos h1
    by_cases h2 : Index uh '@' > 0
    · obtain ⟨user, host, hu, ha, rfl⟩ := Index_pos h2
      exact Or.inl ⟨nick, user, host, hn, hu, hb, ha, rfl, origin_user_host host hn hu hb ha⟩
    · exact Or.inr (Or.inl ⟨nick, uh, hn, hb, h2, rfl, origin_user uh hn hb h2⟩)
  · by_cases h2 : Index pfx '@' > 0
    · obtain ⟨nick, host, hn, ha, rfl⟩ := Index_pos h2
      exact Or.inr (Or.inr (Or.inl ⟨nick, host, hn, ha, h1, rfl, origin_host host hn ha h1⟩))
    · exact Or.inr (Or.inr (Or.inr ⟨h1, h2, origin_server h1 h2⟩))

theorem origin_total (pfx : Str) : ∃ o, NewMessage.origin pfx = some o := by
  rcases origin_cases pfx with ⟨_, _, _, _, _, _, _, _, h⟩ | ⟨_, _, _, _, _, _, h⟩ |
    ⟨_, _, _, _, _, _, h⟩ | ⟨_, _, h⟩
  all_goals exact ⟨_, h⟩

theorem splitArgs_total (args : Str) : ∃ l, NewMessage.splitArgs args = some l := by
  rcases Index_cases ':' args with ⟨h, _⟩ | ⟨a, b, h1, h2, _⟩
  · exact ⟨_, splitArgs_fields h⟩
  · rw [h1]
    exact ⟨_, splitArgs_colon b h2⟩

theorem pieces_colon_one {rest : Str} (h : ' ' ∉ rest) :
    NewMessage.pieces (':' :: rest) = some none := by
  rw [pieces_colon, cut_of_not_mem h]

theorem pieces_colon_two {p r : Str} (hp : ' ' ∉ p) (hr : ' ' ∉ r) :
    NewMessage.pieces (':' :: (p ++ ' ' :: r)) = some (some (p, r, [])) := by
  rw [pieces_colon, cut_append r hp]
  simp only [cut_of_not_mem hr]

theorem pieces_colon_three {p c : Str} (a : Str) (hp : ' ' ∉ p) (hc : ' ' ∉ c) :
    NewMessage.pieces (':' :: (p ++ ' ' :: (c ++ ' ' :: a))) = some (some (p, c, a)) := by
  rw [pieces_colon, cut_append _ hp]
  simp only [cut_append a hc]

theorem pieces_plain_one {t : Str} (ht : HasPrefix t [':'] = false) (h : ' ' ∉ t) :
    NewMessage.pieces t = some (some ([], t, [])) := by
  rw [pieces_plain ht, cut_of_not_mem h]

theorem pieces_plain_two {c : Str} (a : Str) (ht : HasPrefix (c ++ ' ' :: a) [':'] = false)
    (hc : ' ' ∉ c) : NewMessage.pieces (c ++ ' ' :: a) = some (some ([], c, a)) := by
  rw [pieces_plain ht, cut_append a hc]

theorem pieces_cases (t : Str) :
    (∃ rest, t = ':' :: rest ∧ ' ' ∉ rest ∧ NewMessage.pieces t = some none) ∨
    (∃ p r, t = ':' :: (p ++ ' ' :: r) ∧ ' ' ∉ p ∧ ' ' ∉ r ∧
        NewMessage.pieces t = some (some (p, r, []))) ∨
    (∃ p c a, t = ':' :: (p ++ ' ' :: (c ++ ' ' :: a)) ∧ ' ' ∉ p ∧ ' ' ∉ c ∧
        NewMessage.pieces t = some (some (p, c, a))) ∨
    (HasPrefix t [':'] = false ∧ ' ' ∉ t ∧ NewMessage.pieces t = some (some ([], t, []))) ∨
    (∃ c a, t = c ++ ' ' :: a ∧ HasPrefix t [':'] = false ∧ ' ' ∉ c ∧
        NewMessage.pieces t = some (some ([], c, a))) := by
  by_cases ht : HasPrefix t [':'] = true
  · obtain ⟨rest, rfl⟩ := HasPrefix_colon.mp ht
    rcases Index_cases ' ' rest with ⟨h, _⟩ | ⟨p, r, rfl, hp, _⟩
    · exact Or.inl ⟨rest, rfl, h, pieces_colon_one h⟩
    · rcases Index_cases ' ' r with ⟨h, _⟩ | ⟨c, a, rfl, hc, _⟩
      · exact Or.inr (Or.inl ⟨p, r, rfl, hp, h, pieces_colon_two hp h⟩)
      · exact Or.inr (Or.inr (Or.inl ⟨p, c, a, rfl, hp, hc, pieces_colon_three a hp hc⟩))
  · have ht2 : HasPrefix t [':'] = false := by simpa using ht
    rcases Index_cases ' ' t with ⟨h, _⟩ | ⟨c, a, rfl, hc, _⟩
    · exact Or.inr (Or.inr (Or.inr (Or.inl ⟨ht2, h, pieces_plain_one ht2 h⟩)))
    · exact Or.inr (Or.inr (Or.inr (Or.inr ⟨c, a, rfl, ht2, hc, pieces_plain_two a ht2 hc⟩)))

theorem pieces_eq_nil_iff (t : Str) :
    NewMessage.pieces t = some none ↔ HasPrefix t [':'] = true ∧ ' ' ∉ t.tail := by
  rcases pieces_cases t with ⟨rest, rfl, h1, h2⟩ | ⟨p, r, rfl, _, _, h2⟩ |
    ⟨p, c, a, rfl, _, _, h2⟩ | ⟨h0, _, h2⟩ | ⟨c, a, _, h0, _, h2⟩
  · simp [h2, h1, HasPrefix]
  · simp [h2]
  · simp [h2]
  · simp [h2, h0]
  · simp [h2, h0]

theorem pieces_total (t : Str) : ∃ r, NewMessage.pieces t = some r := by
  rcases pieces_cases t with ⟨_, _, _, h2⟩ | ⟨_, _, _, _, _, h2⟩ |
    ⟨_, _, _, _, _, _, h2⟩ | ⟨_, _, h2⟩ | ⟨_, _, _, _, _, h2⟩
  all_goals exact ⟨_, h2⟩

/-- `NewMessage` once the three blocks have returned. -/
theorem NewMessage_of_blocks {raw pfx command args : Str} {o : Str × Str × Str × Str}
    {l : List Str} (h1 : NewMessage.pieces (TrimSpace raw) = some (some (pfx, command, args)))
    (h2 : NewMessage.origin pfx = some o) (h3 : NewMessage.splitArgs args = some l) :
    NewMessage raw = some (some
      { raw := TrimSpace raw
        Command := command
        Server := o.1
        Nick := o.2.1
        User := o.2.2.1
        Host := o.2.2.2
        Args := l }) := by
  simp [NewMessage, h1, h2, h3]

theorem NewMessage_eq_nil_iff (raw : Str) :
    NewMessage raw = some none ↔ NewMessage.pieces (TrimSpace raw) = some none := by
  obtain ⟨r, hr⟩ := pieces_total (TrimSpace raw)
  cases r with
  | none => simp [NewMessage, hr]
  | some pca =>
    obtain ⟨p, c, a⟩ := pca
    obtain ⟨o, ho⟩ := origin_total p
    obtain ⟨l, hl⟩ := splitArgs_total a
    rw [NewMessage_of_blocks hr ho hl, hr]
    simp

theorem NewMessage_total (raw : Str) : ∃ r, NewMessage raw = some r := by
  obtain ⟨r, hr⟩ := pieces_total (TrimSpace raw)
  cases r with
  | none => exact ⟨none, (NewMessage_eq_nil_iff raw).mpr hr⟩
  | some pca =>
    obtain ⟨p, c, a⟩ := pca
    obtain ⟨o, ho⟩ := origin_total p
    obtain ⟨l, hl⟩ := splitArgs_total a
    exact ⟨_, NewMessage_of_blocks hr ho hl⟩

/-! ## C3 -/

/-- C3: `NewMessage raw` returns nil exactly when the trimmed `raw` starts with
':' and the text after that ':' contains no space; `":onlyprefix"` fails; and
every `raw` whose trimmed form does not start with ':' yields a Message. -/
theorem C3_parse_fails_iff (raw : Str) :
    (NewMessage raw = some none ↔
        (HasPrefix (TrimSpace raw) [':'] = true ∧ ' ' ∉ (TrimSpace raw).tail)) ∧
      NewMessage ":onlyprefix".toList = some none ∧
      (HasPrefix (TrimSpace raw) [':'] = false → ∃ m, NewMessage raw = some (some m)) := by
  refine ⟨?_, by decide, ?_⟩
  · rw [NewMessage_eq_nil_iff, pieces_eq_nil_iff]
  · intro h
    obtain ⟨r, hr⟩ := NewMessage_total raw
    cases r with
    | none =>
      have := (pieces_eq_nil_iff _).mp ((NewMessage_eq_nil_iff raw).mp hr)
      rw [h] at this
      exact absurd this.1 (by decide)
    | some m => exact ⟨m, hr⟩

theorem C3_parse_fails_iff_witness :
    HasPrefix (TrimSpace "".toList) [':'] = false ∧ ∃ m, NewMessage "".toList = some (some m) :=
  ⟨by decide, (C3_parse_fails_iff "".toList).2.2 (by decide)⟩

/-! ## Lines built from tokens -/

theorem not_mem_space {s : Str} (h : ∀ c ∈ s, isSpace c = false) : ' ' ∉ s := by
  intro hm
  have := h ' ' hm
  rw [isSpace_space] at this
  exact absurd this (by decide)

theorem startsWithSpace_of_clean {s : Str} (h : ∀ c ∈ s, isSpace c = false) :
    startsWithSpace s = false := by
  cases s with
  | nil => rfl
  | cons x xs => simpa [startsWithSpace] using h x (List.mem_cons_self _ _)

theorem endsWithSpace_of_clean {s : Str} (h : ∀ c ∈ s, isSpace c = false) :
    endsWithSpace s = false := by
  rw [← startsWithSpace_reverse]
  exact startsWithSpace_of_clean (fun c hc => h c (List.mem_reverse.mp hc))

theorem spaced_append (toks : List Str) (r : Str) :
    spaced toks ++ ' ' :: r = ' ' :: (middles toks ++ r) := by
  induction toks with
  | nil => simp [spaced, middles]
  | cons t ts ih =>
    simp only [spaced, middles, List.cons_append, List.append_assoc]
    rw [ih]

theorem not_mem_middles {c : Char} {toks : List Str} (hc : c ≠ ' ')
    (h : ∀ t ∈ toks, c ∉ t) : c ∉ middles toks := by
  induction toks with
  | nil => simp [middles]
  | cons t ts ih =>
    simp only [middles, List.mem_append, List.mem_cons, not_or]
    exact ⟨h t (List.mem_cons_self _ _), hc, ih (fun u hu => h u (List.mem_cons_of_mem _ hu))⟩

theorem count_middles {toks : List Str} (h : ∀ t ∈ toks, ' ' ∉ t) :
    (middles toks).count ' ' = toks.length := by
  induction toks with
  | nil => simp [middles]
  | cons t ts ih =>
    have ht : t.count ' ' = 0 := List.count_eq_zero.mpr (h t (List.mem_cons_self _ _))
    simp only [middles, List.count_append, List.count_cons_self, List.length_cons, ht]
    rw [ih (fun u hu => h u (List.mem_cons_of_mem _ hu))]
    omega

theorem splitN_middles {toks : List Str} (r : Str) (h : ∀ t ∈ toks, ' ' ∉ t) :
    splitN ' ' (toks.length + 1) (middles toks ++ r) = toks ++ [r] := by
  induction toks with
  | nil => simp [middles, splitN]
  | cons t ts ih =>
    have ht := h t (List.mem_cons_self _ _)
    have e : middles (t :: ts) ++ r = t ++ ' ' :: (middles ts ++ r) := by
      simp [middles]
    rw [e, List.length_cons, splitN_append _ _ ht, ih (fun u hu => h u (List.mem_cons_of_mem _ hu))]
    simp

theorem splitArgs_middles {toks : List Str} (s : Str) (h1 : ∀ t ∈ toks, ' ' ∉ t)
    (h2 : ∀ t ∈ toks, ':' ∉ t) :
    NewMessage.splitArgs (middles toks ++ ':' :: s) = some (toks ++ [':' :: s]) := by
  rw [splitArgs_colon s (not_mem_middles (by decide) h2), count_middles h1, splitN_middles _ h1]

theorem HasPrefix_append_of_head {cmd : Str} (r : Str) (h0 : cmd ≠ [])
    (h : cmd.head? ≠ some ':') : HasPrefix (cmd ++ r) [':'] = false := by
  cases cmd with
  | nil => exact absurd rfl h0
  | cons x xs =>
    have hx : ¬ ':' = x := by
      intro e
      apply h
      rw [← e]
      rfl
    simp [HasPrefix, List.isPrefixOf, hx]

theorem TrimSpace_line {cmd : Str} {r : Str} (h0 : cmd ≠ [])
    (hc : ∀ c ∈ cmd, isSpace c = false) (hr : r ≠ [] → endsWithSpace r = false) :
    TrimSpace (cmd ++ r) = cmd ++ r := by
  apply TrimSpace_eq_self
  · rw [startsWithSpace_append r h0]
    exact startsWithSpace_of_clean hc
  · by_cases h : r = []
    · subst h
      rw [List.append_nil]
      exact endsWithSpace_of_clean hc
    · rw [endsWithSpace_append cmd h]
      exact hr h

theorem endsWithSpace_spaced {toks : List Str} (hl : toks ≠ [])
    (h : ∀ t ∈ toks, t ≠ [] ∧ ∀ c ∈ t, isSpace c = false) :
    endsWithSpace (spaced toks) = false := by
  cases toks with
  | nil => exact absurd rfl hl
  | cons t ts =>
    have e : spaced (t :: ts) = ' ' :: Join (t :: ts) [' '] := by
      rw [Join_eq_spaced]
      rfl
    have hne : Join (t :: ts) [' '] ≠ [] := by
      rw [Join_eq_spaced]
      simp [(h t (List.mem_cons_self _ _)).1]
    rw [e, endsWithSpace_cons _ hne]
    exact endsWithSpace_Join hl h

/-! ## C5 and C4 -/

/-- The parse of a command token followed by colon-free tokens, each preceded
by one space. -/
theorem NewMessage_plain_line {cmd : Str} {toks : List Str} (h0 : cmd ≠ [])
    (hc : ∀ c ∈ cmd, isSpace c = false) (hh : cmd.head? ≠ some ':')
    (ht : ∀ t ∈ toks, t ≠ [] ∧ (∀ c ∈ t, isSpace c = false) ∧ ':' ∉ t) :
    TrimSpace (cmd ++ spaced toks) = cmd ++ spaced toks ∧
    NewMessage (cmd ++ spaced toks) = some (some
      { raw := cmd ++ spaced toks
        Command := cmd
        Server := []
        Nick := []
        User := []
        Host := []
        Args := toks }) := by
  have hg : ∀ t ∈ toks, t ≠ [] ∧ ∀ c ∈ t, isSpace c = false :=
    fun t h => ⟨(ht t h).1, (ht t h).2.1⟩
  have htrim : TrimSpace (cmd ++ spaced toks) = cmd ++ spaced toks :=
    TrimSpace_line h0 hc (fun hne => endsWithSpace_spaced (by
      intro e
      apply hne
      rw [e]
      rfl) hg)
  refine ⟨htrim, ?_⟩
  have hp := HasPrefix_append_of_head (spaced toks) h0 hh
  cases toks with
  | nil =>
    have e : cmd ++ spaced [] = cmd := by simp [spaced]
    rw [e] at htrim hp
    rw [e]
    have h1 : NewMessage.pieces (TrimSpace cmd) = some (some ([], cmd, [])) := by
      rw [htrim]
      exact pieces_plain_one hp (not_mem_space hc)
    have := NewMessage_of_blocks h1 origin_nil splitArgs_nil
    rw [htrim] at this
    exact this
  | cons u us =>
    have e : cmd ++ spaced (u :: us) = cmd ++ ' ' :: Join (u :: us) [' '] := by
      rw [Join_eq_spaced]
      rfl
    rw [e] at htrim hp
    rw [e]
    have h1 : NewMessage.pieces (TrimSpace (cmd ++ ' ' :: Join (u :: us) [' '])) =
        some (some ([], cmd, Join (u :: us) [' '])) := by
      rw [htrim]
      exact pieces_plain_two _ hp (not_mem_space hc)
    have hcol : ':' ∉ Join (u :: us) [' '] := by
      intro hm
      rcases mem_Join hm with h2 | ⟨t, h2, h3⟩
      · simp at h2
      · exact (ht t h2).2.2 h3
    have h3 : NewMessage.splitArgs (Join (u :: us) [' ']) = some (u :: us) := by
      rw [splitArgs_fields hcol, Fields_Join _ hg]
    have := NewMessage_of_blocks h1 origin_nil h3
    rw [htrim] at this
    exact this

/-- C5: a line without a prefix, made of a command token `cmd` (non-empty, free
of white space, not starting with ':') followed by `N ≥ 0` tokens (each
non-empty, free of white space and of ':'), each preceded by one space, parses
to `Command = cmd`, `Args = [tok1, ..., tokN]` and empty `Server`, `Nick`,
`User` and `Host`. -/
theorem C5_plain_line (cmd : Str) (toks : List Str) (h0 : cmd ≠ [])
    (hc : ∀ c ∈ cmd, isSpace c = false) (hh : cmd.head? ≠ some ':')
    (ht : ∀ t ∈ toks, t ≠ [] ∧ (∀ c ∈ t, isSpace c = false) ∧ ':' ∉ t) :
    ∃ m, NewMessage (cmd ++ spaced toks) = some (some m) ∧ m.Command = cmd ∧ m.Args = toks ∧
      m.Server = [] ∧ m.Nick = [] ∧ m.User = [] ∧ m.Host = [] := by
  obtain ⟨_, h⟩ := NewMessage_plain_line h0 hc hh ht
  exact ⟨_, h, rfl, rfl, rfl, rfl, rfl, rfl⟩

theorem C5_plain_line_witness :
    ∃ m, NewMessage ("SPOOF".toList ++ spaced ["one".toList, "two".toList]) = some (some m) ∧
      m.Command = "SPOOF".toList ∧ m.Args = ["one".toList, "two".toList] ∧
      m.Server = [] ∧ m.Nick = [] ∧ m.User = [] ∧ m.Host = [] :=
  C5_plain_line "SPOOF".toList ["one".toList, "two".toList] (by decide) (by decide) (by decide)
    (by decide)

/-- C4: a line made of a command token `cmd` (non-empty, free of white space,
not starting with ':'), `k ≥ 0` middle tokens (each non-empty, free of white
space and of ':') and, after `" :"`, a trailing text `s` that does not end in
white space, parses to `Command = cmd` and `Args = [t1, ..., tk, ":" + s]`: the
last argument keeps its leading ':' and its inner spaces. -/
theorem C4_trailing_verbatim (cmd : Str) (toks : List Str) (s : Str) (h0 : cmd ≠ [])
    (hc : ∀ c ∈ cmd, isSpace c = false) (hh : cmd.head? ≠ some ':')
    (ht : ∀ t ∈ toks, t ≠ [] ∧ (∀ c ∈ t, isSpace c = false) ∧ ':' ∉ t)
    (hs : endsWithSpace s = false) :
    ∃ m, NewMessage (cmd ++ spaced toks ++ ' ' :: ':' :: s) = some (some m) ∧
      m.Command = cmd ∧ m.Args = toks ++ [':' :: s] := by
  have e : cmd ++ spaced toks ++ ' ' :: ':' :: s = cmd ++ ' ' :: (middles toks ++ ':' :: s) := by
    rw [List.append_assoc, spaced_append]
  rw [e]
  have hend : endsWithSpace (' ' :: (middles toks ++ ':' :: s)) = false := by
    have e2 : ' ' :: (middles toks ++ ':' :: s) = (' ' :: middles toks) ++ ':' :: s := rfl
    rw [e2, endsWithSpace_append _ (by simp)]
    by_cases h : s = []
    · subst h
      decide
    · rw [endsWithSpace_cons _ h]
      exact hs
  have htrim := @TrimSpace_line cmd (' ' :: (middles toks ++ ':' :: s)) h0 hc (fun _ => hend)
  have hp := HasPrefix_append_of_head (' ' :: (middles toks ++ ':' :: s)) h0 hh
  have h1 : NewMessage.pieces (TrimSpace (cmd ++ ' ' :: (middles toks ++ ':' :: s))) =
      some (some ([], cmd, middles toks ++ ':' :: s)) := by
    rw [htrim]
    exact pieces_plain_two _ hp (not_mem_space hc)
  have h3 := splitArgs_middles s (fun t h => not_mem_space (ht t h).2.1) (fun t h => (ht t h).2.2)
  exact ⟨_, NewMessage_of_blocks h1 origin_nil h3, rfl, rfl⟩

theorem C4_trailing_verbatim_witness :
    ∃ m, NewMessage ("PRIVMSG".toList ++ spaced ["johns".toList] ++
        ' ' :: ':' :: "How are your tests going?".toList) = some (some m) ∧
      m.Command = "PRIVMSG".toList ∧
      m.Args = ["johns".toList] ++ [':' :: "How are your tests going?".toList] :=
  C4_trailing_verbatim "PRIVMSG".toList ["johns".toList] "How are your tests going?".toList
    (by decide) (by decide) (by decide) (by decide) (by decide)

/-! ## C6, C7 and C8 -/

theorem Index_not_pos_of_not_mem {sep : Char} {s : Str} (h : sep ∉ s) : ¬ Index s sep > 0 := by
  rw [Index_of_not_mem h]
  decide

theorem TrimSpace_colon_line (p : Str) {cmd : Str} (h0 : cmd ≠ [])
    (hc : ∀ c ∈ cmd, isSpace c = false) :
    TrimSpace (':' :: (p ++ ' ' :: cmd)) = ':' :: (p ++ ' ' :: cmd) := by
  apply TrimSpace_eq_self
  · show isSpace ':' = false
    decide
  · have e : ':' :: (p ++ ' ' :: cmd) = (':' :: (p ++ [' '])) ++ cmd := by simp
    rw [e, endsWithSpace_append _ h0]
    exact endsWithSpace_of_clean hc

/-- The parse of `":" + pfx + " " + cmd` once the prefix block has returned. -/
theorem NewMessage_colon_line {pfx cmd : Str} {o : Str × Str × Str × Str} (hp : ' ' ∉ pfx)
    (h0 : cmd ≠ []) (hc : ∀ c ∈ cmd, isSpace c = false) (ho : NewMessage.origin pfx = some o) :
    NewMessage (':' :: (pfx ++ ' ' :: cmd)) = some (some
      { raw := ':' :: (pfx ++ ' ' :: cmd)
        Command := cmd
        Server := o.1
        Nick := o.2.1
        User := o.2.2.1
        Host := o.2.2.2
        Args := [] }) := by
  have h1 : NewMessage.pieces (TrimSpace (':' :: (pfx ++ ' ' :: cmd))) =
      some (some (pfx, cmd, [])) := by
    rw [TrimSpace_colon_line pfx h0 hc]
    exact pieces_colon_two hp (not_mem_space hc)
  have := NewMessage_of_blocks h1 ho splitArgs_nil
  rw [TrimSpace_colon_line pfx h0 hc] at this
  exact this

/-- C6: for `nick`, `user`, `host` free of white space, '!' and '@', with `nick`
non-empty and `user` or `host` non-empty, and a command token `cmd` (non-empty,
free of white space), the line `":" + nick + ["!" + user] + ["@" + host] + " " +
cmd` parses to `Nick = nick`, `User = user`, `Host = host`, `Server = ""`,
`Command = cmd` and no `Args`. -/
theorem C6_client_origin (nick user host cmd : Str)
    (hn : ∀ c ∈ nick, isSpace c = false ∧ c ≠ '!' ∧ c ≠ '@')
    (hu : ∀ c ∈ user, isSpace c = false ∧ c ≠ '!' ∧ c ≠ '@')
    (hh : ∀ c ∈ host, isSpace c = false ∧ c ≠ '!' ∧ c ≠ '@')
    (hn0 : nick ≠ []) (huh : user ≠ [] ∨ host ≠ [])
    (h0 : cmd ≠ []) (hc : ∀ c ∈ cmd, isSpace c = false) :
    ∃ m, NewMessage (':' :: nick ++ (if user ≠ [] then '!' :: user else []) ++
          (if host ≠ [] then '@' :: host else []) ++ ' ' :: cmd) = some (some m) ∧
      m.Nick = nick ∧ m.User = user ∧ m.Host = host ∧ m.Server = [] ∧ m.Command = cmd ∧
      m.Args = [] := by
  have sp : ∀ {s : Str}, (∀ c ∈ s, isSpace c = false ∧ c ≠ '!' ∧ c ≠ '@') → ' ' ∉ s :=
    fun h => not_mem_space (fun c hc => (h c hc).1)
  have ex : ∀ {s : Str}, (∀ c ∈ s, isSpace c = false ∧ c ≠ '!' ∧ c ≠ '@') → '!' ∉ s :=
    fun h hm => (h _ hm).2.1 rfl
  have at_ : ∀ {s : Str}, (∀ c ∈ s, isSpace c = false ∧ c ≠ '!' ∧ c ≠ '@') → '@' ∉ s :=
    fun h hm => (h _ hm).2.2 rfl
  by_cases hu0 : user = []
  · have hh0 : host ≠ [] := by
      rcases huh with h | h
      · exact absurd hu0 h
      · exact h
    subst hu0
    have e : (':' :: nick ++ (if ([] : Str) ≠ [] then '!' :: [] else []) ++
        (if host ≠ [] then '@' :: host else []) ++ ' ' :: cmd) =
        ':' :: ((nick ++ '@' :: host) ++ ' ' :: cmd) := by
      simp [hh0]
    rw [e]
    have hp : ' ' ∉ nick ++ '@' :: host := by
      simp only [List.mem_append, List.mem_cons, not_or]
      exact ⟨sp hn, by decide, sp hh⟩
    have hb : '!' ∉ nick ++ '@' :: host := by
      simp only [List.mem_append, List.mem_cons, not_or]
      exact ⟨ex hn, by decide, ex hh⟩
    have ho := origin_host host hn0 (at_ hn) (Index_not_pos_of_not_mem hb)
    exact ⟨_, NewMessage_colon_line hp h0 hc ho, rfl, rfl, rfl, rfl, rfl, rfl⟩
  · by_cases hh0 : host = []
    · subst hh0
      have e : (':' :: nick ++ (if user ≠ [] then '!' :: user else []) ++
          (if ([] : Str) ≠ [] then '@' :: [] else []) ++ ' ' :: cmd) =
          ':' :: ((nick ++ '!' :: user) ++ ' ' :: cmd) := by
        simp [hu0]
      rw [e]
      have hp : ' ' ∉ nick ++ '!' :: user := by
        simp only [List.mem_append, List.mem_cons, not_or]
        exact ⟨sp hn, by decide, sp hu⟩
      have ho := origin_user user hn0 (ex hn) (Index_not_pos_of_not_mem (at_ hu))
      exact ⟨_, NewMessage_colon_line hp h0 hc ho, rfl, rfl, rfl, rfl, rfl, rfl⟩
    · have e : (':' :: nick ++ (if user ≠ [] then '!' :: user else []) ++
          (if host ≠ [] then '@' :: host else []) ++ ' ' :: cmd) =
          ':' :: ((nick ++ '!' :: (user ++ '@' :: host)) ++ ' ' :: cmd) := by
        simp [hu0, hh0]
      rw [e]
      have hp : ' ' ∉ nick ++ '!' :: (user ++ '@' :: host) := by
        simp only [List.mem_append, List.mem_cons, not_or]
        exact ⟨sp hn, by decide, sp hu, by decide, sp hh⟩
      have ho := origin_user_host host hn0 hu0 (ex hn) (at_ hu)
      exact ⟨_, NewMessage_colon_line hp h0 hc ho, rfl, rfl, rfl, rfl, rfl, rfl⟩

theorem C6_client_origin_witness :
    ∃ m, NewMessage (':' :: "johns".toList ++
          (if "John".toList ≠ [] then '!' :: "John".toList else []) ++
          (if ([] : Str) ≠ [] then '@' :: ([] : Str) else []) ++ ' ' :: "SPOOF".toList) =
        some (some m) ∧
      m.Nick = "johns".toList ∧ m.User = "John".toList ∧ m.Host = [] ∧ m.Server = [] ∧
      m.Command = "SPOOF".toList ∧ m.Args = [] :=
  C6_client_origin "johns".toList "John".toList [] "SPOOF".toList (by decide) (by decide)
    (by decide) (by decide) (by decide) (by decide) (by decide)

/-- C7: for a non-empty prefix token `p` free of white space, '!' and '@', and a
command token `cmd` (non-empty, free of white space), the line `":" + p + " " +
cmd` parses to `Server = p` and `Nick = p`, empty `User` and `Host`,
`Command = cmd` and no `Args`. -/
theorem C7_ambiguous_origin (p cmd : Str) (_hp0 : p ≠ [])
    (hp : ∀ c ∈ p, isSpace c = false ∧ c ≠ '!' ∧ c ≠ '@')
    (h0 : cmd ≠ []) (hc : ∀ c ∈ cmd, isSpace c = false) :
    ∃ m, NewMessage (':' :: p ++ ' ' :: cmd) = some (some m) ∧
      m.Server = p ∧ m.Nick = p ∧ m.User = [] ∧ m.Host = [] ∧ m.Command = cmd ∧
      m.Args = [] := by
  have h1 : '!' ∉ p := fun hm => (hp _ hm).2.1 rfl
  have h2 : '@' ∉ p := fun hm => (hp _ hm).2.2 rfl
  have ho := origin_server (Index_not_pos_of_not_mem h1) (Index_not_pos_of_not_mem h2)
  have hs : ' ' ∉ p := not_mem_space (fun c hc => (hp c hc).1)
  exact ⟨_, NewMessage_colon_line hs h0 hc ho, rfl, rfl, rfl, rfl, rfl, rfl⟩

theorem C7_ambiguous_origin_witness :
    ∃ m, NewMessage (':' :: "google.com".toList ++ ' ' :: "SPOOF".toList) = some (some m) ∧
      m.Server = "google.com".toList ∧ m.Nick = "google.com".toList ∧ m.User = [] ∧
      m.Host = [] ∧ m.Command = "SPOOF".toList ∧ m.Args = [] :=
  C7_ambiguous_origin "google.com".toList "SPOOF".toList (by decide) (by decide) (by decide)
    (by decide)

theorem Join_eq_intercalate (l : List Str) (sep : Str) : Join l sep = sep.intercalate l := by
  induction l with
  | nil => simp [Join, List.intercalate]
  | cons a rest ih =>
    cases rest with
    | nil => simp [Join, List.intercalate]
    | cons b rest2 =>
      rw [Join_cons_cons, ih]
      simp [List.intercalate, List.intersperse]

/-- C8: for every Message `m`, `m.String()` is `P + m.Command + A`, where `P` is
the prefix of the three-case rule (`Server` first, then `Nick` with the optional
`"!" + User` and `"@" + Host`, else nothing) and `A` is a space followed by the
`Args` joined by single spaces when `Args` is non-empty, nothing otherwise. -/
theorem C8_serialize_rule (m : Message) :
    m.String = m.specPrefix ++ m.Command ++ m.specArgs := by
  have hA : (if m.Args.length > 0 then
        (m.specPrefix ++ m.Command) ++ ([' '] ++ Join m.Args [' '])
      else m.specPrefix ++ m.Command) = m.specPrefix ++ m.Command ++ m.specArgs := by
    cases hargs : m.Args with
    | nil => simp [Message.specArgs, hargs]
    | cons a rest => simp [Message.specArgs, hargs, Join_eq_intercalate]
  rw [← hA]
  unfold Message.String Message.specPrefix
  by_cases h1 : m.Server = []
  · by_cases h2 : m.Nick = []
    · simp [h1, h2]
    · by_cases h3 : m.User = [] <;> by_cases h4 : m.Host = [] <;> simp [h1, h2, h3, h4]
  · simp [h1]

/-! ## The line transport: C9 and C10 -/

theorem NewMessage_congr {a b : Str} (h : TrimSpace a = TrimSpace b) :
    NewMessage a = NewMessage b := by
  unfold NewMessage
  rw [h]

theorem TrimSpace_crlf {s : Str} (h : TrimSpace s = s) (h0 : s ≠ []) :
    TrimSpace (s ++ ['\r', '\n']) = s := by
  have h1 : startsWithSpace s = false := by
    rw [← h]
    exact startsWithSpace_TrimSpace s
  have h2 : endsWithSpace s = false := by
    rw [← h]
    exact endsWithSpace_TrimSpace s
  have h3 : startsWithSpace (s ++ ['\r', '\n']) = false := by
    rw [startsWithSpace_append _ h0]
    exact h1
  unfold TrimSpace
  rw [dropWhile_of_not_startsWithSpace h3]
  have e : (s ++ ['\r', '\n']).reverse = '\n' :: '\r' :: s.reverse := by simp
  have hn : isSpace '\n' = true := by decide
  have hr : isSpace '\r' = true := by decide
  rw [e, List.dropWhile_cons_of_pos hn, List.dropWhile_cons_of_pos hr,
    dropWhile_of_not_startsWithSpace (by rw [startsWithSpace_reverse]; exact h2)]
  simp

theorem String_plain {m : Message} (hS : m.Server = []) (hN : m.Nick = []) :
    m.String = m.Command ++ spaced m.Args := by
  cases hargs : m.Args with
  | nil => simp [Message.String, hS, hN, hargs, spaced]
  | cons a rest =>
    have e : spaced (a :: rest) = ' ' :: Join (a :: rest) [' '] := by
      rw [Join_eq_spaced]
      rfl
    simp [Message.String, hS, hN, hargs, e]

theorem not_mem_spaced {c : Char} {toks : List Str} (hc : c ≠ ' ')
    (h : ∀ t ∈ toks, c ∉ t) : c ∉ spaced toks := by
  induction toks with
  | nil => simp [spaced]
  | cons t ts ih =>
    simp only [spaced, List.mem_cons, List.mem_append, not_or]
    exact ⟨⟨hc, h t (List.mem_cons_self _ _)⟩,
      ih (fun u hu => h u (List.mem_cons_of_mem _ hu))⟩

theorem not_mem_newline {s : Str} (h : ∀ c ∈ s, isSpace c = false) : '\n' ∉ s := by
  intro hm
  have := h '\n' hm
  have hn : isSpace '\n' = true := by decide
  rw [hn] at this
  exact absurd this (by decide)

theorem Read_pipe_line {p : Pipe} {line : Str} {r : Option Message} (hl : '\n' ∉ line)
    (hp : p.incoming = line ++ ['\n']) (hr : NewMessage (line ++ ['\n']) = some r) :
    (Conn.Read ⟨Pipe.stream, p⟩).map (fun x => x.1) = some (r, none) := by
  have hcut : cut '\n' p.incoming = some (line, []) := by
    rw [hp]
    exact cut_append [] hl
  simp [Conn.Read, Pipe.stream, hcut, hr]

/-- C9: for a Message `m` with empty `Server`, `Nick`, `User` and `Host`, a
`Command` that is a non-empty token free of white space and not starting with
':', and `Args` that are non-empty tokens free of white space and of ':', the
line handed to the stream by `Write` is `m.String() + "\r\n"` (on any stream,
and flushed to the peer on a healthy in-memory stream), and parsing that line,
as `Read` does, succeeds with the same `Command` and `Args`. -/
theorem C9_echo_round_trip (m : Message) (hS : m.Server = []) (hN : m.Nick = [])
    (_hU : m.User = []) (_hH : m.Host = []) (h0 : m.Command ≠ [])
    (hc : ∀ c ∈ m.Command, isSpace c = false) (hh : m.Command.head? ≠ some ':')
    (ht : ∀ t ∈ m.Args, t ≠ [] ∧ (∀ c ∈ t, isSpace c = false) ∧ ':' ∉ t) :
    (∀ (σ : Type) (conn : Conn σ),
        (Conn.Write conn m).1 =
          (conn.stream.WriteString conn.rwc (m.String ++ ['\r', '\n'])).1.2 ∧
        (Conn.Write conn m).2.rwc =
          (conn.stream.Flush (conn.stream.WriteString conn.rwc (m.String ++ ['\r', '\n'])).2).2) ∧
      (∀ p : Pipe, p.writeErr = none →
        (Conn.Write ⟨Pipe.stream, p⟩ m).1 = none ∧
        (Conn.Write ⟨Pipe.stream, p⟩ m).2.rwc.sent =
          p.sent ++ (p.pending ++ (m.String ++ ['\r', '\n']))) ∧
      ∃ m2, NewMessage (m.String ++ ['\r', '\n']) = some (some m2) ∧
        m2.Command = m.Command ∧ m2.Args = m.Args ∧
        ∀ p : Pipe, p.incoming = m.String ++ ['\r', '\n'] →
          (Conn.Read ⟨Pipe.stream, p⟩).map (fun x => x.1) = some (some m2, none) := by
  refine ⟨fun σ conn => ⟨rfl, rfl⟩, ?_, ?_⟩
  · intro p hp
    simp [Conn.Write, Pipe.stream, hp]
  · obtain ⟨htrim, hparse⟩ := NewMessage_plain_line h0 hc hh ht
    have hne : m.Command ++ spaced m.Args ≠ [] := by simp [h0]
    have hline : NewMessage (m.String ++ ['\r', '\n']) = NewMessage (m.Command ++ spaced m.Args) := by
      apply NewMessage_congr
      rw [String_plain hS hN, TrimSpace_crlf htrim hne, htrim]
    rw [hparse] at hline
    refine ⟨_, hline, rfl, rfl, ?_⟩
    intro p hp
    have hnl : '\n' ∉ m.String ++ ['\r'] := by
      rw [String_plain hS hN]
      simp only [List.mem_append, List.mem_singleton, not_or]
      exact ⟨⟨not_mem_newline hc,
        not_mem_spaced (by decide) (fun t h => not_mem_newline (ht t h).2.1)⟩, by decide⟩
    have e : m.String ++ ['\r', '\n'] = (m.String ++ ['\r']) ++ ['\n'] := by simp
    rw [e] at hp hline
    exact Read_pipe_line hnl hp hline

theorem C9_echo_round_trip_witness :
    ∃ m2, NewMessage ((⟨"NICK".toList, [], [], [], [], ["johns".toList], []⟩ : Message).String ++
          ['\r', '\n']) = some (some m2) ∧
      m2.Command = "NICK".toList ∧ m2.Args = ["johns".toList] :=
  have h := (C9_echo_round_trip ⟨"NICK".toList, [], [], [], [], ["johns".toList], []⟩
    rfl rfl rfl rfl (by decide) (by decide) (by decide) (by decide)).2.2
  ⟨h.choose, h.choose_spec.1, h.choose_spec.2.1, h.choose_spec.2.2.1⟩

/-- C10 as stated fails: the stream delivers the line `":onlyprefix\r\n"`
without error, the parse of that line fails, and `Read` returns a nil Message
together with a nil error. -/
theorem C10_counterexample :
    (Pipe.stream.ReadString ⟨":onlyprefix\r\n".toList, [], [], none⟩ '\n').1 =
        (":onlyprefix\r\n".toList, none) ∧
      NewMessage ":onlyprefix\r\n".toList = some none ∧
      (Conn.Read ⟨Pipe.stream, ⟨":onlyprefix\r\n".toList, [], [], none⟩⟩).map (fun x => x.1) =
        some (none, none) ∧
      ¬ ∃ e, e ≠ Error.EOF ∧
        (Conn.Read ⟨Pipe.stream, ⟨":onlyprefix\r\n".toList, [], [], none⟩⟩).map (fun x => x.1.2) =
          some (some e) := by
  refine ⟨by decide, by decide, by decide, ?_⟩
  rintro ⟨e, _, h⟩
  have hval : (Conn.Read ⟨Pipe.stream, ⟨":onlyprefix\r\n".toList, [], [], none⟩⟩).map
      (fun x => x.1.2) = some none := by decide
  rw [hval] at h
  cases h

/-- C10, amended: when the stream delivers a line without error and the parse of
that line fails, `Read` returns a nil Message together with a nil error: the
failure is not turned into an error. -/
theorem C10_malformed_line_nil_nil {σ : Type} (conn : Conn σ) (line : Str)
    (hread : (conn.stream.ReadString conn.rwc '\n').1 = (line, none))
    (hfail : NewMessage line = some none) :
    (Conn.Read conn).map (fun x => x.1) = some (none, none) := by
  have h1 : (conn.stream.ReadString conn.rwc '\n').1.1 = line := by rw [hread]
  have h2 : (conn.stream.ReadString conn.rwc '\n').1.2 = none := by rw [hread]
  simp [Conn.Read, h1, h2, hfail]

theorem C10_malformed_line_nil_nil_witness :
    (Conn.Read ⟨Pipe.stream, ⟨":irc.example.org\n".toList, [], [], none⟩⟩).map (fun x => x.1) =
      some (none, none) :=
  C10_malformed_line_nil_nil ⟨Pipe.stream, ⟨":irc.example.org\n".toList, [], [], none⟩⟩
    ":irc.example.org\n".toList (by decide) (by decide)

/-! ## Serializing a parsed message and parsing it again -/

theorem String_shape (m : Message) :
    m.String =
      (if prefixText m.Server m.Nick m.User m.Host = [] then []
        else ':' :: (prefixText m.Server m.Nick m.User m.Host ++ [' '])) ++
      (m.Command ++ (if m.Args = [] then [] else ' ' :: Join m.Args [' '])) := by
  have hA : (if m.Args.length > 0 then
        ((if prefixText m.Server m.Nick m.User m.Host = [] then []
          else ':' :: (prefixText m.Server m.Nick m.User m.Host ++ [' '])) ++ m.Command) ++
          ([' '] ++ Join m.Args [' '])
      else (if prefixText m.Server m.Nick m.User m.Host = [] then []
          else ':' :: (prefixText m.Server m.Nick m.User m.Host ++ [' '])) ++ m.Command) =
      (if prefixText m.Server m.Nick m.User m.Host = [] then []
        else ':' :: (prefixText m.Server m.Nick m.User m.Host ++ [' '])) ++
      (m.Command ++ (if m.Args = [] then [] else ' ' :: Join m.Args [' '])) := by
    cases hargs : m.Args with
    | nil => simp
    | cons a rest => simp
  rw [← hA]
  unfold Message.String prefixText
  by_cases h1 : m.Server = []
  · by_cases h2 : m.Nick = []
    · simp [h1, h2]
    · by_cases h3 : m.User = [] <;> by_cases h4 : m.Host = [] <;> simp [h1, h2, h3, h4]
  · simp [h1]

theorem origin_facts {p : Str} {o : Str × Str × Str × Str} (h : NewMessage.origin p = some o) :
    (p = [] → o = ([], [], [], [])) ∧ (p ≠ [] → o.2.1 ≠ []) ∧
      (∀ x, x ∈ o.1 ∨ x ∈ o.2.1 ∨ x ∈ o.2.2.1 ∨ x ∈ o.2.2.2 → x ∈ p) := by
  rcases origin_cases p with ⟨n, u, hst, hn, _, _, _, rfl, ho⟩ | ⟨n, uh, hn, _, _, rfl, ho⟩ |
    ⟨n, hst, hn, _, _, rfl, ho⟩ | ⟨_, _, ho⟩
  all_goals
    rw [ho] at h
    cases h
  · refine ⟨by simp, fun _ => hn, ?_⟩
    intro x hx
    simp only [List.mem_append, List.mem_cons]
    simp only [List.not_mem_nil, false_or] at hx
    tauto
  · refine ⟨by simp, fun _ => hn, ?_⟩
    intro x hx
    simp only [List.mem_append, List.mem_cons]
    simp only [List.not_mem_nil, false_or, or_false] at hx
    tauto
  · refine ⟨by simp, fun _ => hn, ?_⟩
    intro x hx
    simp only [List.mem_append, List.mem_cons]
    simp only [List.not_mem_nil, false_or] at hx
    tauto
  · refine ⟨fun e => by simp [e], fun hp => hp, ?_⟩
    intro x hx
    simp only [List.not_mem_nil, or_false] at hx
    tauto

theorem prefixText_facts {p sv n u hst : Str} (h : NewMessage.origin p = some (sv, n, u, hst))
    (hp : ' ' ∉ p) :
    ' ' ∉ prefixText sv n u hst ∧ (prefixText sv n u hst = [] ↔ p = []) := by
  obtain ⟨f1, f2, f3⟩ := origin_facts h
  have hsv : ' ' ∉ sv := fun hm => hp (f3 _ (Or.inl hm))
  have hn : ' ' ∉ n := fun hm => hp (f3 _ (Or.inr (Or.inl hm)))
  have hu : ' ' ∉ u := fun hm => hp (f3 _ (Or.inr (Or.inr (Or.inl hm))))
  have hh : ' ' ∉ hst := fun hm => hp (f3 _ (Or.inr (Or.inr (Or.inr hm))))
  constructor
  · unfold prefixText
    by_cases h1 : sv = []
    · by_cases h2 : n = []
      · simp [h1, h2]
      · by_cases h3 : u = [] <;> by_cases h4 : hst = [] <;>
          simp [h1, h2, h3, h4, hn, hu, hh]
    · simp [h1, hsv]
  · constructor
    · intro e
      by_contra hne
      have hn0 : n ≠ [] := f2 hne
      unfold prefixText at e
      by_cases h1 : sv = []
      · simp [h1, hn0] at e
      · simp [h1] at e
    · intro e
      have := f1 e
      simp only [Prod.mk.injEq] at this
      obtain ⟨rfl, rfl, rfl, rfl⟩ := this
      simp [prefixText]

theorem splitArgs_Join {a : Str} {l : List Str} (h : NewMessage.splitArgs a = some l) :
    NewMessage.splitArgs (Join l [' ']) = some l := by
  rcases Index_cases ':' a with ⟨hc, _⟩ | ⟨x, y, rfl, hx, _⟩
  · rw [splitArgs_fields hc] at h
    cases h
    have hg : ∀ t ∈ Fields a, t ≠ [] ∧ ∀ c ∈ t, isSpace c = false :=
      fun t ht => ⟨(Fields_mem ht).1, fun c hc => ((Fields_mem ht).2 c hc).1⟩
    have hcol : ':' ∉ Join (Fields a) [' '] := by
      intro hm
      rcases mem_Join hm with h2 | ⟨t, h2, h3⟩
      · simp at h2
      · exact hc ((Fields_mem h2).2 _ h3).2
    rw [splitArgs_fields hcol, Fields_Join _ hg]
  · have h0 := h
    rw [splitArgs_colon y hx] at h
    cases h
    rw [Join_splitN]
    exact h0

theorem splitArgs_end {a : Str} {l : List Str} (h : NewMessage.splitArgs a = some l)
    (ha : a ≠ []) (he : endsWithSpace a = false) :
    l ≠ [] ∧ Join l [' '] ≠ [] ∧ endsWithSpace (Join l [' ']) = false := by
  rcases Index_cases ':' a with ⟨hc, _⟩ | ⟨x, y, rfl, hx, _⟩
  · rw [splitArgs_fields hc] at h
    cases h
    have hg : ∀ t ∈ Fields a, t ≠ [] ∧ ∀ c ∈ t, isSpace c = false :=
      fun t ht => ⟨(Fields_mem ht).1, fun c hc => ((Fields_mem ht).2 c hc).1⟩
    refine ⟨Fields_ne_nil ha he, ?_, endsWithSpace_Join (Fields_ne_nil ha he) hg⟩
    cases hf : Fields a with
    | nil => exact absurd hf (Fields_ne_nil ha he)
    | cons t ts =>
      rw [Join_eq_spaced]
      have := (hg t (by rw [hf]; exact List.mem_cons_self _ _)).1
      simp [this]
  · rw [splitArgs_colon y hx] at h
    cases h
    refine ⟨splitN_succ_ne_nil _ _ _, ?_, ?_⟩
    · rw [Join_splitN]
      exact ha
    · rw [Join_splitN]
      exact he

theorem splitArgs_eq_nil {a : Str} (h : NewMessage.splitArgs a = some [])
    (he : endsWithSpace a = false) : a = [] := by
  by_contra ha
  exact (splitArgs_end h ha he).1 rfl

theorem head_ne_colon {t : Str} (h : HasPrefix t [':'] = false) : t.head? ≠ some ':' := by
  cases t with
  | nil => simp
  | cons x xs =>
    intro e
    have hx : x = ':' := by simpa using e
    subst hx
    have : HasPrefix (':' :: xs) [':'] = true := HasPrefix_colon.mpr ⟨xs, rfl⟩
    rw [this] at h
    exact absurd h (by decide)

theorem endsWithSpace_snoc_space (s : Str) : endsWithSpace (s ++ [' ']) = true := by
  rw [endsWithSpace_append s (by simp)]
  decide

/-- What the first block of `NewMessage` yields on a trimmed line. -/
theorem pieces_facts {t p c a : Str} (ht1 : startsWithSpace t = false)
    (ht2 : endsWithSpace t = false) (hp : NewMessage.pieces t = some (some (p, c, a))) :
    ' ' ∉ p ∧ ' ' ∉ c ∧ (a ≠ [] → endsWithSpace a = false) ∧
      (a = [] → endsWithSpace c = false) ∧ (p ≠ [] → a = [] → c ≠ []) ∧
      (p = [] → HasPrefix t [':', ' '] = false →
        (c = [] ∧ a = []) ∨ (c ≠ [] ∧ c.head? ≠ some ':' ∧ startsWithSpace c = false)) ∧
      (HasPrefix t [':'] = true → ∃ rest, t = ':' :: (p ++ ' ' :: rest)) ∧
      (HasPrefix t [':'] = false → p = []) := by
  rcases pieces_cases t with ⟨rest, rfl, _, h2⟩ | ⟨p0, r, rfl, hp0, hr, h2⟩ |
    ⟨p0, c0, a0, rfl, hp0, hc0, h2⟩ | ⟨h0, hsp, h2⟩ | ⟨c0, a0, rfl, h0, hc0, h2⟩
  · rw [h2] at hp
    cases hp
  · rw [h2] at hp
    cases hp
    have hr0 : c ≠ [] := by
      intro e
      subst e
      have e2 : ':' :: (p ++ [' ']) = (':' :: p) ++ [' '] := rfl
      rw [e2, endsWithSpace_snoc_space] at ht2
      exact absurd ht2 (by decide)
    have hcend : endsWithSpace c = false := by
      have e2 : ':' :: (p ++ ' ' :: c) = (':' :: (p ++ [' '])) ++ c := by simp
      rw [e2, endsWithSpace_append _ hr0] at ht2
      exact ht2
    refine ⟨hp0, hr, fun h => absurd rfl h, fun _ => hcend, fun _ _ => hr0, ?_,
      fun _ => ⟨c, rfl⟩, ?_⟩
    · intro e hpre
      subst e
      exact absurd hpre (by simp [HasPrefix, List.isPrefixOf])
    · intro hpre
      exact absurd hpre (by simp [HasPrefix, List.isPrefixOf])
  · rw [h2] at hp
    cases hp
    have ha0 : a ≠ [] := by
      intro e
      subst e
      have e2 : ':' :: (p ++ ' ' :: (c ++ [' '])) = (':' :: (p ++ ' ' :: c)) ++ [' '] := by simp
      rw [e2, endsWithSpace_snoc_space] at ht2
      exact absurd ht2 (by decide)
    have haend : endsWithSpace a = false := by
      have e2 : ':' :: (p ++ ' ' :: (c ++ ' ' :: a)) = (':' :: (p ++ ' ' :: (c ++ [' ']))) ++ a := by
        simp
      rw [e2, endsWithSpace_append _ ha0] at ht2
      exact ht2
    refine ⟨hp0, hc0, fun _ => haend, fun h => absurd h ha0, fun _ h => absurd h ha0, ?_,
      fun _ => ⟨_, rfl⟩, ?_⟩
    · intro e hpre
      subst e
      exact absurd hpre (by simp [HasPrefix, List.isPrefixOf])
    · intro hpre
      exact absurd hpre (by simp [HasPrefix, List.isPrefixOf])
  · rw [h2] at hp
    cases hp
    refine ⟨by simp, hsp, fun h => absurd rfl h, fun _ => ht2, fun h => absurd rfl h, ?_,
      ?_, fun _ => rfl⟩
    · intro _ _
      by_cases hc : t = []
      · exact Or.inl ⟨hc, rfl⟩
      · exact Or.inr ⟨hc, head_ne_colon h0, ht1⟩
    · intro hpre
      rw [h0] at hpre
      exact absurd hpre (by decide)
  · rw [h2] at hp
    cases hp
    have ha0 : a ≠ [] := by
      intro e
      subst e
      rw [endsWithSpace_snoc_space] at ht2
      exact absurd ht2 (by decide)
    have haend : endsWithSpace a = false := by
      have e2 : c ++ ' ' :: a = (c ++ [' ']) ++ a := by simp
      rw [e2, endsWithSpace_append _ ha0] at ht2
      exact ht2
    have hc1 : c ≠ [] := by
      intro e
      subst e
      exact absurd ht1 (by simp [startsWithSpace, isSpace_space])
    have hhead : c.head? ≠ some ':' := by
      have := head_ne_colon h0
      cases c with
      | nil => exact absurd rfl hc1
      | cons x xs => simpa using this
    have hstart : startsWithSpace c = false := by
      rw [startsWithSpace_append _ hc1] at ht1
      exact ht1
    refine ⟨by simp, hc0, fun _ => haend, fun h => absurd h ha0, fun h => absurd rfl h,
      fun _ _ => Or.inr ⟨hc1, hhead, hstart⟩, ?_, fun _ => rfl⟩
    intro hpre
    rw [h0] at hpre
    exact absurd hpre (by decide)

/-- The three blocks behind a successful parse, with what is known of their
results. -/
theorem parse_facts {raw : Str} {m : Message} (h : NewMessage raw = some (some m)) :
    ∃ p a, NewMessage.pieces (TrimSpace raw) = some (some (p, m.Command, a)) ∧
      NewMessage.origin p = some (m.Server, m.Nick, m.User, m.Host) ∧
      NewMessage.splitArgs a = some m.Args := by
  obtain ⟨r, hr⟩ := pieces_total (TrimSpace raw)
  cases r with
  | none =>
    rw [(NewMessage_eq_nil_iff raw).mpr hr] at h
    cases h
  | some pca =>
    obtain ⟨p, c, a⟩ := pca
    obtain ⟨o, ho⟩ := origin_total p
    obtain ⟨l, hl⟩ := splitArgs_total a
    rw [NewMessage_of_blocks hr ho hl] at h
    cases h
    exact ⟨p, a, hr, ho, hl⟩

/-- The first block of `NewMessage` on a serialized message. -/
theorem pieces_serialized {P c : Str} {l : List Str} (hP : ' ' ∉ P) (hc : ' ' ∉ c)
    (h1 : P = [] →
      (c = [] ∧ l = []) ∨ (c ≠ [] ∧ c.head? ≠ some ':' ∧ startsWithSpace c = false))
    (h2 : l = [] → endsWithSpace c = false) (h3 : l = [] → P ≠ [] → c ≠ [])
    (h4 : l ≠ [] → Join l [' '] ≠ [] ∧ endsWithSpace (Join l [' ']) = false) :
    NewMessage.pieces (TrimSpace
        ((if P = [] then [] else ':' :: (P ++ [' '])) ++
          (c ++ (if l = [] then [] else ' ' :: Join l [' '])))) =
      some (some (P, c, Join l [' '])) := by
  by_cases hP0 : P = []
  · subst hP0
    rcases h1 rfl with ⟨rfl, rfl⟩ | ⟨hc0, hhead, hstart⟩
    · decide
    · by_cases hl : l = []
      · subst hl
        have e : (if ([] : Str) = [] then [] else ':' :: (([] : Str) ++ [' '])) ++
            (c ++ (if ([] : List Str) = [] then [] else ' ' :: Join [] [' '])) = c := by simp
        rw [e, TrimSpace_eq_self hstart (h2 rfl)]
        have hpre := HasPrefix_append_of_head [] hc0 hhead
        rw [List.append_nil] at hpre
        exact pieces_plain_one hpre hc
      · have e : (if ([] : Str) = [] then [] else ':' :: (([] : Str) ++ [' '])) ++
            (c ++ (if l = [] then [] else ' ' :: Join l [' '])) = c ++ ' ' :: Join l [' '] := by
          simp [hl]
        have hend : endsWithSpace (c ++ ' ' :: Join l [' ']) = false := by
          have e2 : c ++ ' ' :: Join l [' '] = (c ++ [' ']) ++ Join l [' '] := by simp
          rw [e2, endsWithSpace_append _ (h4 hl).1]
          exact (h4 hl).2
        have hst : startsWithSpace (c ++ ' ' :: Join l [' ']) = false := by
          rw [startsWithSpace_append _ hc0]
          exact hstart
        rw [e, TrimSpace_eq_self hst hend]
        exact pieces_plain_two _ (HasPrefix_append_of_head _ hc0 hhead) hc
  · by_cases hl : l = []
    · subst hl
      have hc0 := h3 rfl hP0
      have e : (if P = [] then [] else ':' :: (P ++ [' '])) ++
          (c ++ (if ([] : List Str) = [] then [] else ' ' :: Join [] [' '])) =
          ':' :: (P ++ ' ' :: c) := by
        simp [hP0]
      have hend : endsWithSpace (':' :: (P ++ ' ' :: c)) = false := by
        have e2 : ':' :: (P ++ ' ' :: c) = (':' :: (P ++ [' '])) ++ c := by simp
        rw [e2, endsWithSpace_append _ hc0]
        exact h2 rfl
      rw [e, TrimSpace_eq_self (by show isSpace ':' = false; decide) hend]
      exact pieces_colon_two hP hc
    · have e : (if P = [] then [] else ':' :: (P ++ [' '])) ++
          (c ++ (if l = [] then [] else ' ' :: Join l [' '])) =
          ':' :: (P ++ ' ' :: (c ++ ' ' :: Join l [' '])) := by
        simp [hP0, hl]
      have hend : endsWithSpace (':' :: (P ++ ' ' :: (c ++ ' ' :: Join l [' ']))) = false := by
        have e2 : ':' :: (P ++ ' ' :: (c ++ ' ' :: Join l [' '])) =
            (':' :: (P ++ ' ' :: (c ++ [' ']))) ++ Join l [' '] := by simp
        rw [e2, endsWithSpace_append _ (h4 hl).1]
        exact (h4 hl).2
      rw [e, TrimSpace_eq_self (by show isSpace ':' = false; decide) hend]
      exact pieces_colon_three _ hP hc

/-! ## C1 and C2: the round trip through `String` -/

theorem Index_append_left {sep : Char} {a : Str} (b : Str) (h : Index a sep > 0) :
    Index (a ++ b) sep > 0 := by
  obtain ⟨x, y, hx, hs, rfl⟩ := Index_pos h
  have e : x ++ sep :: y ++ b = x ++ sep :: (y ++ b) := by simp
  rw [Index_append y hs] at h
  rw [e, Index_append (y ++ b) hs]
  exact h

/-- Serializing a parsed message and parsing the result again: the first and
third block return the same command and arguments, the second block runs on the
serialized prefix. -/
theorem reparse {raw : Str} {m : Message} (h : NewMessage raw = some (some m))
    (hH : ¬ (HasPrefix (TrimSpace raw) [':', ' '] = true ∧
      (m.Command = [] ∨ m.Command.head? = some ':' ∨ startsWithSpace m.Command = true))) :
    ∃ p o, NewMessage.origin p = some (m.Server, m.Nick, m.User, m.Host) ∧
      (HasPrefix (TrimSpace raw) [':'] = true → ∃ rest, TrimSpace raw = ':' :: (p ++ ' ' :: rest)) ∧
      NewMessage.origin (prefixText m.Server m.Nick m.User m.Host) = some o ∧
      NewMessage m.String = some (some
        { raw := TrimSpace m.String
          Command := m.Command
          Server := o.1
          Nick := o.2.1
          User := o.2.2.1
          Host := o.2.2.2
          Args := m.Args }) := by
  obtain ⟨p, a, hp, ho, hl⟩ := parse_facts h
  obtain ⟨f1, f2, f3, f4, f5, f6, f7, _⟩ :=
    pieces_facts (startsWithSpace_TrimSpace raw) (endsWithSpace_TrimSpace raw) hp
  obtain ⟨g1, g2⟩ := prefixText_facts ho f1
  obtain ⟨o, ho2⟩ := origin_total (prefixText m.Server m.Nick m.User m.Host)
  have ha_of_l : m.Args = [] → a = [] := by
    intro hl0
    by_contra ha
    exact (splitArgs_end hl ha (f3 ha)).1 hl0
  have hl_of_a : a = [] → m.Args = [] := by
    intro ha
    subst ha
    rw [splitArgs_nil] at hl
    exact (Option.some.inj hl).symm
  have h1 : prefixText m.Server m.Nick m.User m.Host = [] →
      (m.Command = [] ∧ m.Args = []) ∨
        (m.Command ≠ [] ∧ m.Command.head? ≠ some ':' ∧ startsWithSpace m.Command = false) := by
    intro hP
    have hp0 : p = [] := g2.mp hP
    by_cases hpre : HasPrefix (TrimSpace raw) [':', ' '] = true
    · right
      refine ⟨fun e => hH ⟨hpre, Or.inl e⟩, fun e => hH ⟨hpre, Or.inr (Or.inl e)⟩, ?_⟩
      by_contra e
      exact hH ⟨hpre, Or.inr (Or.inr (by simpa using e))⟩
    · rcases f6 hp0 (by simpa using hpre) with ⟨hc, ha⟩ | hgood
      · exact Or.inl ⟨hc, hl_of_a ha⟩
      · exact Or.inr hgood
  have h2 : m.Args = [] → endsWithSpace m.Command = false := fun hl0 => f4 (ha_of_l hl0)
  have h3 : m.Args = [] → prefixText m.Server m.Nick m.User m.Host ≠ [] → m.Command ≠ [] :=
    fun hl0 hP => f5 (fun e => hP (g2.mpr e)) (ha_of_l hl0)
  have h4 : m.Args ≠ [] → Join m.Args [' '] ≠ [] ∧ endsWithSpace (Join m.Args [' ']) = false := by
    intro hl0
    have ha : a ≠ [] := fun e => hl0 (hl_of_a e)
    exact (splitArgs_end hl ha (f3 ha)).2
  have hpieces := pieces_serialized g1 f2 h1 h2 h3 h4
  rw [← String_shape m] at hpieces
  exact ⟨p, o, ho, f7, ho2, NewMessage_of_blocks hpieces ho2 (splitArgs_Join hl)⟩

/-- The second block of `NewMessage` on a serialized prefix gives back the nick,
user and host it was serialized from. -/
theorem origin_prefixText {p sv n u hst : Str}
    (h : NewMessage.origin p = some (sv, n, u, hst)) (hx : u ≠ [] ∨ ¬ Index n '@' > 0) :
    ∃ sv2, NewMessage.origin (prefixText sv n u hst) = some (sv2, n, u, hst) := by
  rcases origin_cases p with ⟨nick, user, host, hn, hu, hb, ha, rfl, ho⟩ |
    ⟨nick, uh, hn, hb, hidx, rfl, ho⟩ | ⟨nick, host, hn, ha, hidx, rfl, ho⟩ | ⟨h1, h2, ho⟩
  · rw [ho] at h
    cases h
    by_cases hh : hst = []
    · subst hh
      have e : prefixText [] n u [] = n ++ '!' :: u := by simp [prefixText, hn, hu]
      rw [e]
      exact ⟨[], origin_user u hn hb (Index_not_pos_of_not_mem ha)⟩
    · have e : prefixText [] n u hst = n ++ '!' :: (u ++ '@' :: hst) := by
        simp [prefixText, hn, hu, hh]
      rw [e]
      exact ⟨[], origin_user_host hst hn hu hb ha⟩
  · rw [ho] at h
    cases h
    by_cases hu : u = []
    · subst hu
      have e : prefixText [] n [] [] = n := by simp [prefixText, hn]
      rw [e]
      have hx2 : ¬ Index n '@' > 0 := by
        rcases hx with hx | hx
        · exact absurd rfl hx
        · exact hx
      exact ⟨n, origin_server (Index_not_pos_of_not_mem hb) hx2⟩
    · have e : prefixText [] n u [] = n ++ '!' :: u := by simp [prefixText, hn, hu]
      rw [e]
      exact ⟨[], origin_user u hn hb hidx⟩
  · rw [ho] at h
    cases h
    by_cases hh : hst = []
    · subst hh
      have e : prefixText [] n [] [] = n := by simp [prefixText, hn]
      rw [e]
      have hb : ¬ Index n '!' > 0 := fun hpos => hidx (Index_append_left _ hpos)
      exact ⟨n, origin_server hb (Index_not_pos_of_not_mem ha)⟩
    · have e : prefixText [] n [] hst = n ++ '@' :: hst := by simp [prefixText, hn, hh]
      rw [e]
      exact ⟨[], origin_host hst hn ha hidx⟩
  · rw [ho] at h
    cases h
    have e : prefixText p p [] [] = p := by
      by_cases hs : p = [] <;> simp [prefixText, hs]
    rw [e]
    exact ⟨p, ho⟩

/-- C1 as stated fails: `":  a"` (an empty prefix and an empty command) parses
to a Message whose serialization `" a"` parses to `Command = "a"` and no
`Args`, where the Message has `Command = ""` and `Args = ["a"]`. -/
theorem C1_counterexample :
    ∃ m, NewMessage ":  a".toList = some (some m) ∧
      ¬ ∃ m2, NewMessage m.String = some (some m2) ∧ m2.Command = m.Command ∧
        m2.Args = m.Args := by
  refine ⟨⟨[], [], [], [], [], [['a']], ":  a".toList⟩, by decide, ?_⟩
  rintro ⟨m2, h, hc, _⟩
  have hval : NewMessage (Message.String ⟨[], [], [], [], [], [['a']], ":  a".toList⟩) =
      some (some ⟨['a'], [], [], [], [], [], ['a']⟩) := by decide
  rw [hval] at h
  cases h
  exact absurd hc (by decide)

/-- C1, amended: for every raw string on which parse succeeds with result `m`,
unless the trimmed raw string starts with `": "` (an empty prefix) and
`m.Command` is empty or begins with ':' or with a white-space character,
parsing `m.String()` succeeds and gives exactly `m.Command` and `m.Args`. -/
theorem C1_round_trip (raw : Str) (m : Message) (h : NewMessage raw = some (some m))
    (hH : ¬ (HasPrefix (TrimSpace raw) [':', ' '] = true ∧
      (m.Command = [] ∨ m.Command.head? = some ':' ∨ startsWithSpace m.Command = true))) :
    ∃ m2, NewMessage m.String = some (some m2) ∧ m2.Command = m.Command ∧
      m2.Args = m.Args := by
  obtain ⟨_, _, _, _, _, hparse⟩ := reparse h hH
  exact ⟨_, hparse, rfl, rfl⟩

theorem C1_round_trip_witness :
    ∃ m2, NewMessage (Message.String ⟨"PRIVMSG".toList, [], "johns".toList, "john".toList,
          "localhost".toList, ["#go".toList, ":hi  there".toList],
          ":johns!john@localhost PRIVMSG #go :hi  there".toList⟩) = some (some m2) ∧
      m2.Command = "PRIVMSG".toList ∧ m2.Args = ["#go".toList, ":hi  there".toList] :=
  C1_round_trip " :johns!john@localhost PRIVMSG #go :hi  there\r\n".toList
    ⟨"PRIVMSG".toList, [], "johns".toList, "john".toList, "localhost".toList,
      ["#go".toList, ":hi  there".toList], ":johns!john@localhost PRIVMSG #go :hi  there".toList⟩
    (by decide) (by decide)

/-- C2 as stated fails: the prefix of `":a@b! CMD"` contains '!' and '@', the
line parses to `Nick = "a@b"` with empty `User` and `Host`, and the
serialization `":a@b CMD"` parses to `Nick = "a"` and `Host = "b"`. -/
theorem C2_counterexample :
    ∃ m, TrimSpace ":a@b! CMD".toList = ':' :: ("a@b!".toList ++ ' ' :: "CMD".toList) ∧
      ' ' ∉ "a@b!".toList ∧ ('!' ∈ "a@b!".toList ∨ '@' ∈ "a@b!".toList) ∧
      NewMessage ":a@b! CMD".toList = some (some m) ∧
      ¬ ∃ m2, NewMessage m.String = some (some m2) ∧ m2.Command = m.Command ∧
        m2.Nick = m.Nick ∧ m2.User = m.User ∧ m2.Host = m.Host ∧ m2.Args = m.Args := by
  refine ⟨⟨"CMD".toList, [], "a@b".toList, [], [], [], ":a@b! CMD".toList⟩, by decide, by decide,
    by decide, by decide, ?_⟩
  rintro ⟨m2, h, _, hn, _⟩
  have hval : NewMessage (Message.String
      ⟨"CMD".toList, [], "a@b".toList, [], [], [], ":a@b! CMD".toList⟩) =
      some (some ⟨"CMD".toList, [], ['a'], [], ['b'], [], ":a@b CMD".toList⟩) := by decide
  rw [hval] at h
  cases h
  exact absurd hn (by decide)

/-- C2, amended: for every raw string whose prefix (the text between the leading
':' and the first space of the trimmed line) contains '!' or '@' and on which
parse succeeds with result `m`, provided `m.User` is non-empty or `m.Nick` has
no '@' after its first character, parsing `m.String()` succeeds and gives the
same `Command`, `Nick`, `User`, `Host` and `Args` as `m`. -/
theorem C2_round_trip_origin (raw p rest : Str) (m : Message)
    (hpre : TrimSpace raw = ':' :: (p ++ ' ' :: rest)) (_hsp : ' ' ∉ p)
    (hmark : '!' ∈ p ∨ '@' ∈ p) (h : NewMessage raw = some (some m))
    (hx : m.User ≠ [] ∨ ¬ Index m.Nick '@' > 0) :
    ∃ m2, NewMessage m.String = some (some m2) ∧ m2.Command = m.Command ∧
      m2.Nick = m.Nick ∧ m2.User = m.User ∧ m2.Host = m.Host ∧ m2.Args = m.Args := by
  have hH : ¬ (HasPrefix (TrimSpace raw) [':', ' '] = true ∧
      (m.Command = [] ∨ m.Command.head? = some ':' ∨ startsWithSpace m.Command = true)) := by
    rintro ⟨hpfx, _⟩
    rw [hpre] at hpfx
    cases p with
    | nil => simp at hmark
    | cons x xs =>
      have hx0 : ¬ ' ' = x := by
        intro e
        apply _hsp
        rw [← e]
        exact List.mem_cons_self _ _
      simp [HasPrefix, List.isPrefixOf, hx0] at hpfx
  obtain ⟨q, o, ho, _, ho2, hparse⟩ := reparse h hH
  obtain ⟨sv2, ho3⟩ := origin_prefixText ho hx
  rw [ho3] at ho2
  cases ho2
  exact ⟨_, hparse, rfl, rfl, rfl, rfl, rfl⟩

theorem C2_round_trip_origin_witness :
    ∃ m2, NewMessage (Message.String ⟨"NICK".toList, [], "johns".toList, "john".toList,
          "localhost".toList, ["johns".toList, ":foo".toList],
          ":johns!john@localhost NICK johns :foo".toList⟩) = some (some m2) ∧
      m2.Command = "NICK".toList ∧ m2.Nick = "johns".toList ∧ m2.User = "john".toList ∧
      m2.Host = "localhost".toList ∧ m2.Args = ["johns".toList, ":foo".toList] :=
  C2_round_trip_origin ":johns!john@localhost NICK johns :foo".toList
    "johns!john@localhost".toList "NICK johns :foo".toList
    ⟨"NICK".toList, [], "johns".toList, "john".toList, "localhost".toList,
      ["johns".toList, ":foo".toList], ":johns!john@localhost NICK johns :foo".toList⟩
    (by decide) (by decide) (by decide) (by decide) (by decide)

/-! ## C11: what `Write` reports -/

/-- C11 as stated fails: on a connection that refuses the flushed bytes,
`WriteString` buffers the line without error, `Flush` fails, and `Write`
returns a nil error. -/
theorem C11_counterexample :
    (Pipe.stream.WriteString ⟨[], [], [], some (Error.other 1)⟩
        ((⟨"NICK".toList, [], [], [], [], ["johns".toList], []⟩ : Message).String ++
          ['\r', '\n'])).1.2 = none ∧
      (Pipe.stream.Flush (Pipe.stream.WriteString ⟨[], [], [], some (Error.other 1)⟩
        ((⟨"NICK".toList, [], [], [], [], ["johns".toList], []⟩ : Message).String ++
          ['\r', '\n'])).2).1 = some (Error.other 1) ∧
      (Conn.Write ⟨Pipe.stream, ⟨[], [], [], some (Error.other 1)⟩⟩
        ⟨"NICK".toList, [], [], [], [], ["johns".toList], []⟩).1 = none := by
  refine ⟨by decide, by decide, by decide⟩

/-- C11, amended: for every Message `m` and every state of the connection, the
error that `Write` returns is the error of `WriteString`, and the stream is left
in the state after the flush: when writing the serialized line to the buffered
stream fails, `Write` returns a non-nil error; the result of `Flush` is
discarded, so when `WriteString` succeeds and `Flush` fails, `Write` returns a
nil error. -/
theorem C11_write_reports_WriteString {σ : Type} (conn : Conn σ) (m : Message) :
    (Conn.Write conn m).1 =
        (conn.stream.WriteString conn.rwc (m.String ++ ['\r', '\n'])).1.2 ∧
      (Conn.Write conn m).2.rwc =
        (conn.stream.Flush (conn.stream.WriteString conn.rwc (m.String ++ ['\r', '\n'])).2).2 ∧
      ((conn.stream.WriteString conn.rwc (m.String ++ ['\r', '\n'])).1.2 ≠ none →
        (Conn.Write conn m).1 ≠ none) ∧
      ((conn.stream.WriteString conn.rwc (m.String ++ ['\r', '\n'])).1.2 = none →
        (conn.stream.Flush
          (conn.stream.WriteString conn.rwc (m.String ++ ['\r', '\n'])).2).1 ≠ none →
        (Conn.Write conn m).1 = none) := by
  have e : (Conn.Write conn m).1 =
      (conn.stream.WriteString conn.rwc (m.String ++ ['\r', '\n'])).1.2 := rfl
  refine ⟨e, rfl, ?_, ?_⟩
  · intro hfail
    rw [e]
    exact hfail
  · intro hok _
    rw [e]
    exact hok

theorem C11_write_reports_WriteString_witness :
    (Conn.Write ⟨failedStream, Error.other 7⟩
        ⟨"NICK".toList, [], [], [], [], ["johns".toList], []⟩).1 ≠ none ∧
      (Conn.Write ⟨Pipe.stream, ⟨[], [], [], some (Error.other 1)⟩⟩
        ⟨"PING".toList, [], [], [], [], ["irc.example.org".toList], []⟩).1 = none :=
  ⟨(C11_write_reports_WriteString ⟨failedStream, Error.other 7⟩
      ⟨"NICK".toList, [], [], [], [], ["johns".toList], []⟩).2.2.1 (by decide),
    (C11_write_reports_WriteString ⟨Pipe.stream, ⟨[], [], [], some (Error.other 1)⟩⟩
      ⟨"PING".toList, [], [], [], [], ["irc.example.org".toList], []⟩).2.2.2 (by decide)
      (by decide)⟩

/-! ## C12 to C15: invariants of a parsed message -/

/-- C12 fails on the code: the blank line `"\r\n"` (and the empty string) is
parsed to a Message whose `Command` is empty, and so is a prefixed line with
two spaces after the prefix. -/
theorem C12_empty_command :
    (∃ m, NewMessage "\r\n".toList = some (some m) ∧ m.Command = []) ∧
      (∃ m, NewMessage "".toList = some (some m) ∧ m.Command = []) ∧
      (∃ m, NewMessage ":irc.example.org  NOTICE".toList = some (some m) ∧ m.Command = []) := by
  refine ⟨⟨⟨[], [], [], [], [], [], []⟩, by decide, rfl⟩,
    ⟨⟨[], [], [], [], [], [], []⟩, by decide, rfl⟩,
    ⟨⟨[], "irc.example.org".toList, "irc.example.org".toList, [], [], ["NOTICE".toList],
      ":irc.example.org  NOTICE".toList⟩, by decide, rfl⟩⟩

/-- The origin fields of a parsed message: a client origin with an empty
`Server`, or the whole prefix as both `Server` and `Nick`. -/
theorem origin_shape {p sv n u hst : Str} (h : NewMessage.origin p = some (sv, n, u, hst)) :
    (sv = [] ∧ n ≠ []) ∨
      (sv = p ∧ n = p ∧ u = [] ∧ hst = [] ∧ ¬ Index p '!' > 0 ∧ ¬ Index p '@' > 0) := by
  rcases origin_cases p with ⟨nick, user, host, hn, _, _, _, _, ho⟩ |
    ⟨nick, uh, hn, _, _, _, ho⟩ | ⟨nick, host, hn, _, _, _, ho⟩ | ⟨h1, h2, ho⟩
  all_goals
    rw [ho] at h
    simp only [Option.some.injEq, Prod.mk.injEq] at h
  · exact Or.inl ⟨h.1.symm, by rw [← h.2.1]; exact hn⟩
  · exact Or.inl ⟨h.1.symm, by rw [← h.2.1]; exact hn⟩
  · exact Or.inl ⟨h.1.symm, by rw [← h.2.1]; exact hn⟩
  · exact Or.inr ⟨h.1.symm, h.2.1.symm, h.2.2.1.symm, h.2.2.2.symm, h1, h2⟩

/-- C13: for every raw string on which parse succeeds with result `m`, either
`m.Server = m.Nick` and `m.User = m.Host = ""`, or `m.Server = ""` and `m.Nick`
is non-empty; in particular a non-empty `User` or `Host` implies a non-empty
`Nick` and an empty `Server`. -/
theorem C13_server_or_client (raw : Str) (m : Message) (h : NewMessage raw = some (some m)) :
    ((m.Server = m.Nick ∧ m.User = [] ∧ m.Host = []) ∨ (m.Server = [] ∧ m.Nick ≠ [])) ∧
      ((m.User ≠ [] ∨ m.Host ≠ []) → m.Nick ≠ [] ∧ m.Server = []) := by
  obtain ⟨p, a, _, ho, _⟩ := parse_facts h
  rcases origin_shape ho with ⟨h1, h2⟩ | ⟨h1, h2, h3, h4, _, _⟩
  · exact ⟨Or.inr ⟨h1, h2⟩, fun _ => ⟨h2, h1⟩⟩
  · refine ⟨Or.inl ⟨by rw [h1, h2], h3, h4⟩, ?_⟩
    rintro (hu | hh)
    · exact absurd h3 hu
    · exact absurd h4 hh

theorem C13_server_or_client_witness :
    (([] : Str) = "johns".toList ∧ "John".toList = [] ∧ "localhost".toList = []) ∨
      (([] : Str) = [] ∧ "johns".toList ≠ []) :=
  (C13_server_or_client ":johns!John@localhost SPOOF".toList
    ⟨"SPOOF".toList, [], "johns".toList, "John".toList, "localhost".toList, [],
      ":johns!John@localhost SPOOF".toList⟩ (by decide)).1

/-- C14 as stated fails: `":!u CMD"` parses with `Server = "!u"`, and its
prefix `"!u"` contains '!'. -/
theorem C14_counterexample :
    ∃ m, NewMessage ":!u CMD".toList = some (some m) ∧ m.Server ≠ [] ∧
      TrimSpace ":!u CMD".toList = ':' :: ("!u".toList ++ ' ' :: "CMD".toList) ∧
      ' ' ∉ "!u".toList ∧ '!' ∈ "!u".toList := by
  exact ⟨⟨"CMD".toList, "!u".toList, "!u".toList, [], [], [], ":!u CMD".toList⟩, by decide,
    by decide, by decide, by decide, by decide⟩

/-- C14, amended: for every raw string on which parse succeeds with a non-empty
`Server`, the trimmed line has a prefix (the text between the leading ':' and
the first space), `Server` is that prefix, and neither `strings.Index(prefix,
"!")` nor `strings.Index(prefix, "@")` is positive: the prefix contains '!'
(or '@') only if it begins with it. -/
theorem C14_server_origin (raw : Str) (m : Message) (h : NewMessage raw = some (some m))
    (hs : m.Server ≠ []) :
    ∃ p rest, TrimSpace raw = ':' :: (p ++ ' ' :: rest) ∧ ' ' ∉ p ∧ m.Server = p ∧
      ¬ Index p '!' > 0 ∧ ¬ Index p '@' > 0 ∧
      ('!' ∈ p → p.head? = some '!') ∧ ('@' ∈ p → p.head? = some '@') := by
  obtain ⟨p, a, hp, ho, _⟩ := parse_facts h
  obtain ⟨f1, _, _, _, _, _, f7, f8⟩ :=
    pieces_facts (startsWithSpace_TrimSpace raw) (endsWithSpace_TrimSpace raw) hp
  rcases origin_shape ho with ⟨h1, _⟩ | ⟨h1, _, _, _, h5, h6⟩
  · exact absurd h1 hs
  · have hp0 : p ≠ [] := by
      rw [← h1]
      exact hs
    have hpre : HasPrefix (TrimSpace raw) [':'] = true := by
      by_contra hn
      exact hp0 (f8 (by simpa using hn))
    obtain ⟨rest, hrest⟩ := f7 hpre
    have head_of : ∀ sep : Char, ¬ Index p sep > 0 → sep ∈ p → p.head? = some sep := by
      intro sep hidx hm
      rcases Index_cases sep p with ⟨hn, _⟩ | ⟨x, y, hxy, _, hlen⟩
      · exact absurd hm hn
      · cases x with
        | nil => rw [hxy]; rfl
        | cons c cs =>
          rw [hlen] at hidx
          exact absurd (by simp : ((c :: cs).length : Int) > 0) hidx
    exact ⟨p, rest, hrest, f1, h1, h5, h6, head_of '!' h5, head_of '@' h6⟩

theorem C14_server_origin_witness :
    ∃ p rest, TrimSpace ":google.com SPOOF".toList = ':' :: (p ++ ' ' :: rest) ∧ ' ' ∉ p ∧
      "google.com".toList = p ∧ ¬ Index p '!' > 0 ∧ ¬ Index p '@' > 0 ∧
      ('!' ∈ p → p.head? = some '!') ∧ ('@' ∈ p → p.head? = some '@') :=
  C14_server_origin ":google.com SPOOF".toList
    ⟨"SPOOF".toList, "google.com".toList, "google.com".toList, [], [], [],
      ":google.com SPOOF".toList⟩ (by decide) (by decide)

theorem splitN_dropLast (sep : Char) (n : Nat) (s : Str) :
    ∀ t ∈ (splitN sep n s).dropLast, sep ∉ t := by
  induction n generalizing s with
  | zero => simp [splitN]
  | succ n ih =>
    cases n with
    | zero => simp [splitN]
    | succ k =>
      cases hc : cut sep s with
      | none => simp [splitN, hc]
      | some ab =>
        obtain ⟨a, b⟩ := ab
        have ha := (cut_eq_some.mp hc).2
        intro t ht
        simp only [splitN, hc] at ht
        rw [List.dropLast_cons_of_ne_nil (splitN_succ_ne_nil sep k b)] at ht
        rcases List.mem_cons.mp ht with h1 | h1
        · rw [h1]
          exact ha
        · exact ih b t h1

/-- C15: for every raw string on which parse succeeds, every element of `Args`
other than the last contains no space character. -/
theorem C15_spaces_only_in_last (raw : Str) (m : Message)
    (h : NewMessage raw = some (some m)) : ∀ t ∈ m.Args.dropLast, ' ' ∉ t := by
  obtain ⟨p, a, _, _, hl⟩ := parse_facts h
  intro t ht
  rcases Index_cases ':' a with ⟨hc, _⟩ | ⟨x, y, hxy, hx, _⟩
  · rw [splitArgs_fields hc] at hl
    have hmem : t ∈ Fields a := by
      rw [Option.some.inj hl]
      exact List.mem_of_mem_dropLast ht
    exact not_mem_space (fun c hc2 => ((Fields_mem hmem).2 c hc2).1)
  · rw [hxy, splitArgs_colon y hx] at hl
    rw [← Option.some.inj hl] at ht
    exact splitN_dropLast ' ' _ _ t ht

theorem C15_spaces_only_in_last_witness : ' ' ∉ "johns".toList :=
  C15_spaces_only_in_last "PRIVMSG johns :How are your tests going?".toList
    ⟨"PRIVMSG".toList, [], [], [], [], ["johns".toList, ":How are your tests going?".toList],
      "PRIVMSG johns :How are your tests going?".toList⟩ (by decide) "johns".toList (by decide)

/-! ## C19: no index or slice is out of range -/

/-- C19: for every input string each of the three blocks of `NewMessage`
returns without an out-of-range index or slice: `raw[1:]` is in range whenever
`raw` starts with ':', `pieces[0]`, `pieces[1]` and `pieces[2]` and the two-way
splits at '!' and '@' are in range, `args[0:trailingPos]` is in range whenever
`trailingPos` is not negative; so `NewMessage` is total: it returns a Message
or nil and never panics. -/
theorem C19_never_panics (raw : Str) :
    (∀ t : Str, HasPrefix t [':'] = false ∨ ∃ rest, sliceFrom t 1 = some rest) ∧
      (∃ r, NewMessage.pieces (TrimSpace raw) = some r) ∧
      (∀ pfx, ∃ o, NewMessage.origin pfx = some o) ∧
      (∀ args, Index args ':' < 0 ∨ ∃ head, slice args 0 (Index args ':') = some head) ∧
      (∀ args, ∃ l, NewMessage.splitArgs args = some l) ∧
      ∃ r, NewMessage raw = some r := by
  refine ⟨?_, pieces_total _, origin_total, ?_, splitArgs_total, NewMessage_total raw⟩
  · intro t
    by_cases ht : HasPrefix t [':'] = true
    · obtain ⟨rest, rfl⟩ := HasPrefix_colon.mp ht
      exact Or.inr ⟨rest, by simp [sliceFrom]⟩
    · exact Or.inl (by simpa using ht)
  · intro args
    rcases Index_cases ':' args with ⟨_, h1⟩ | ⟨x, y, hxy, _, hlen⟩
    · left
      rw [h1]
      decide
    · right
      rw [hlen, hxy]
      exact ⟨x, slice_append x _⟩

/-! ## C16, C17 and C18: tokens and the argument segment -/

theorem afterSpace_append {a : Str} (b : Str) (h : ' ' ∉ a) : afterSpace (a ++ ' ' :: b) = b := by
  induction a with
  | nil => simp [afterSpace]
  | cons x xs ih =>
    have hx : x ≠ ' ' := fun e => h (by rw [e]; exact List.mem_cons_self _ _)
    have hxs : ' ' ∉ xs := fun hm => h (List.mem_cons_of_mem _ hm)
    have := ih hxs
    simp only [afterSpace] at this
    simp [afterSpace, hx, this]

theorem afterSpace_of_not_mem {s : Str} (h : ' ' ∉ s) : afterSpace s = [] := by
  induction s with
  | nil => simp [afterSpace]
  | cons x xs ih =>
    have hx : x ≠ ' ' := fun e => h (by rw [e]; exact List.mem_cons_self _ _)
    have hxs : ' ' ∉ xs := fun hm => h (List.mem_cons_of_mem _ hm)
    have := ih hxs
    simp only [afterSpace] at this
    simp [afterSpace, hx, this]

theorem argSegment_of_pieces {raw p c a : Str}
    (h : NewMessage.pieces (TrimSpace raw) = some (some (p, c, a))) : argSegment raw = a := by
  unfold argSegment
  rcases pieces_cases (TrimSpace raw) with ⟨rest, _, _, h2⟩ | ⟨p0, r, ht, hp0, hr, h2⟩ |
    ⟨p0, c0, a0, ht, hp0, hc0, h2⟩ | ⟨h0, hsp, h2⟩ | ⟨c0, a0, ht, h0, hc0, h2⟩
  · rw [h2] at h
    cases h
  · rw [h2] at h
    simp only [Option.some.injEq, Prod.mk.injEq] at h
    have hpre : HasPrefix (TrimSpace raw) [':'] = true := HasPrefix_colon.mpr ⟨_, ht⟩
    rw [if_pos hpre, ht, List.tail_cons, afterSpace_append r hp0, afterSpace_of_not_mem hr]
    exact h.2.2
  · rw [h2] at h
    simp only [Option.some.injEq, Prod.mk.injEq] at h
    have hpre : HasPrefix (TrimSpace raw) [':'] = true := HasPrefix_colon.mpr ⟨_, ht⟩
    rw [if_pos hpre, ht, List.tail_cons, afterSpace_append _ hp0, afterSpace_append a0 hc0]
    exact h.2.2
  · rw [h2] at h
    simp only [Option.some.injEq, Prod.mk.injEq] at h
    rw [h0]
    simp only [Bool.false_eq_true, if_false]
    rw [afterSpace_of_not_mem hsp]
    exact h.2.2
  · rw [h2] at h
    simp only [Option.some.injEq, Prod.mk.injEq] at h
    rw [h0]
    simp only [Bool.false_eq_true, if_false]
    rw [ht, afterSpace_append a0 hc0]
    exact h.2.2

theorem splitOnP_length_lt_two {p : Char → Bool} {xs : Str}
    (h : (xs.splitOnP p).length < 2) : ∀ x ∈ xs, p x = false := by
  induction xs with
  | nil => simp
  | cons x xs ih =>
    rw [List.splitOnP_cons] at h
    by_cases hx : p x = true
    · rw [if_pos hx] at h
      have hne := List.splitOnP_ne_nil p xs
      have : 0 < (xs.splitOnP p).length := List.length_pos.mpr hne
      simp only [List.length_cons] at h
      omega
    · rw [if_neg hx] at h
      have hlen : ((xs.splitOnP p).modifyHead (List.cons x)).length = (xs.splitOnP p).length := by
        cases xs.splitOnP p <;> simp [List.modifyHead]
      rw [hlen] at h
      intro y hy
      rcases List.mem_cons.mp hy with h1 | h1
      · rw [h1]
        simpa using hx
      · exact ih h y h1

/-- C16 as stated fails: the text after the ':' of `": NICK"` has one
whitespace-separated token, and the line is parsed to a Message (an empty
prefix and the command `NICK`), not rejected. -/
theorem C16_counterexample :
    HasPrefix (TrimSpace ": NICK".toList) [':'] = true ∧
      (Fields (TrimSpace ": NICK".toList).tail).length < 2 ∧
      NewMessage ": NICK".toList ≠ some none ∧
      ∃ m, NewMessage ": NICK".toList = some (some m) ∧ m.Command = "NICK".toList := by
  exact ⟨by decide, by decide, by decide,
    ⟨"NICK".toList, [], [], [], [], [], ": NICK".toList⟩, by decide, rfl⟩

/-- C16, amended: for every raw string whose trimmed form starts with ':' and
whose text after that ':' gives fewer than two pieces when it is cut at every
space character (empty pieces counted), parse returns the failure value. -/
theorem C16_too_few_pieces (raw : Str) (h1 : HasPrefix (TrimSpace raw) [':'] = true)
    (h2 : ((TrimSpace raw).tail.splitOn ' ').length < 2) : NewMessage raw = some none := by
  have hfree : ' ' ∉ (TrimSpace raw).tail := by
    intro hm
    have := splitOnP_length_lt_two h2 ' ' hm
    simp at this
  rw [NewMessage_eq_nil_iff, pieces_eq_nil_iff]
  exact ⟨h1, hfree⟩

theorem C16_too_few_pieces_witness : NewMessage ":onlyprefix".toList = some none :=
  C16_too_few_pieces ":onlyprefix".toList (by decide) (by decide)

theorem splitN_length {sep : Char} (n : Nat) {s : Str} (h : n ≤ s.count sep) :
    (splitN sep (n + 1) s).length = n + 1 := by
  induction n generalizing s with
  | zero => simp [splitN]
  | succ n ih =>
    cases hc : cut sep s with
    | none =>
      have := cut_eq_none.mp hc
      rw [List.count_eq_zero.mpr this] at h
      omega
    | some ab =>
      obtain ⟨a, b⟩ := ab
      obtain ⟨hs, ha⟩ := cut_eq_some.mp hc
      have hcount : s.count sep = b.count sep + 1 := by
        rw [hs, List.count_append, List.count_eq_zero.mpr ha, List.count_cons_self]
        omega
      simp only [splitN, hc, List.length_cons]
      rw [ih (by omega)]

theorem takeWhile_before_colon {x : Str} (y : Str) (h : ':' ∉ x) :
    (x ++ ':' :: y).takeWhile (fun c => c != ':') = x := by
  induction x with
  | nil => simp
  | cons c cs ih =>
    have hc : c ≠ ':' := fun e => h (by rw [e]; exact List.mem_cons_self _ _)
    have hcs : ':' ∉ cs := fun hm => h (List.mem_cons_of_mem _ hm)
    have hb : (c != ':') = true := by simpa using hc
    rw [List.cons_append, List.takeWhile_cons]
    simp only [hb, if_true]
    rw [ih hcs]

/-- C17 as stated fails: the argument segment of `"CMD a b:x y"` is
`"a b:x y"`, its first ':' is at index 3 and the substring before it, `"a b"`,
consists of the 2 space-separated tokens `a` and `b`, but `Args` is
`["a", "b:x y"]`: 2 elements, not 3, and the last is not the segment from
index 3. -/
theorem C17_counterexample :
    ∃ m, NewMessage "CMD a b:x y".toList = some (some m) ∧
      argSegment "CMD a b:x y".toList = "a b:x y".toList ∧
      Index "a b:x y".toList ':' = 3 ∧
      ("a b:x y".toList.take 3).splitOn ' ' = ["a".toList, "b".toList] ∧
      m.Args = ["a".toList, "b:x y".toList] ∧ m.Args.length ≠ 2 + 1 ∧
      m.Args.getLast? ≠ some ("a b:x y".toList.drop 3) := by
  exact ⟨⟨"CMD".toList, [], [], [], [], ["a".toList, "b:x y".toList], "CMD a b:x y".toList⟩,
    by decide, by decide, by decide, by decide, rfl, by decide, by decide⟩

/-- C17, amended: for every raw string on which parse succeeds and whose
argument segment contains ':', with the first ':' at index `i` and the
substring before `i` consisting of `k` tokens (non-empty, free of spaces), each
followed by exactly one space, `Args` has exactly `k + 1` elements, the first
`k` being those tokens in order and the last being the substring of the
argument segment from index `i` to its end. -/
theorem C17_tokens_then_trailing (raw : Str) (m : Message) (toks : List Str) (s : Str)
    (h : NewMessage raw = some (some m))
    (hseg : argSegment raw = middles toks ++ ':' :: s)
    (ht : ∀ t ∈ toks, t ≠ [] ∧ ' ' ∉ t ∧ ':' ∉ t) :
    Index (argSegment raw) ':' = ((middles toks).length : Int) ∧
      m.Args.length = toks.length + 1 ∧ m.Args.take toks.length = toks ∧
      m.Args.getLast? = some ((argSegment raw).drop (middles toks).length) ∧
      m.Args = toks ++ [':' :: s] := by
  obtain ⟨p, a, hp, _, hl⟩ := parse_facts h
  have ha : a = middles toks ++ ':' :: s := by
    rw [← argSegment_of_pieces hp]
    exact hseg
  have hcol : ':' ∉ middles toks := not_mem_middles (by decide) (fun t h => (ht t h).2.2)
  rw [ha, splitArgs_middles s (fun t h => (ht t h).2.1) (fun t h => (ht t h).2.2)] at hl
  have hargs : m.Args = toks ++ [':' :: s] := (Option.some.inj hl).symm
  refine ⟨?_, ?_, ?_, ?_, hargs⟩
  · rw [hseg]
    exact Index_append s hcol
  · rw [hargs]
    simp
  · rw [hargs]
    simp
  · rw [hargs, hseg]
    simp

theorem C17_tokens_then_trailing_witness :
    (["johns".toList, ":foo bar".toList] : List Str) =
      ["johns".toList] ++ [':' :: "foo bar".toList] :=
  (C17_tokens_then_trailing ":johns!john@localhost NICK johns :foo bar".toList
    ⟨"NICK".toList, [], "johns".toList, "john".toList, "localhost".toList,
      ["johns".toList, ":foo bar".toList], ":johns!john@localhost NICK johns :foo bar".toList⟩
    ["johns".toList] "foo bar".toList (by decide) (by decide) (by decide)).2.2.2.2

/-- C18: for every raw string on which parse succeeds and whose argument
segment contains ':', `Args` has exactly `n + 1` elements, where `n` is the
number of space characters before the first ':' of the segment, and joining
`Args` with single spaces gives back the argument segment. -/
theorem C18_split_loses_nothing (raw : Str) (m : Message)
    (h : NewMessage raw = some (some m)) (hc : ':' ∈ argSegment raw) :
    m.Args.length = ((argSegment raw).takeWhile (fun c => c != ':')).count ' ' + 1 ∧
      [' '].intercalate m.Args = argSegment raw ∧ Join m.Args [' '] = argSegment raw := by
  obtain ⟨p, a, hp, _, hl⟩ := parse_facts h
  rw [argSegment_of_pieces hp] at hc ⊢
  rcases Index_cases ':' a with ⟨hn, _⟩ | ⟨x, y, hxy, hx, _⟩
  · exact absurd hc hn
  · subst hxy
    rw [splitArgs_colon y hx] at hl
    have hargs : m.Args = splitN ' ' (x.count ' ' + 1) (x ++ ':' :: y) :=
      (Option.some.inj hl).symm
    have hjoin : Join m.Args [' '] = x ++ ':' :: y := by
      rw [hargs, Join_splitN]
    refine ⟨?_, ?_, hjoin⟩
    · rw [takeWhile_before_colon y hx, hargs]
      exact splitN_length _ (by rw [List.count_append]; omega)
    · rw [← Join_eq_intercalate]
      exact hjoin

theorem C18_split_loses_nothing_witness :
    [' '].intercalate (["a".toList, "".toList, "b:x  y".toList] : List Str) =
      argSegment "CMD a  b:x  y".toList :=
  (C18_split_loses_nothing "CMD a  b:x  y".toList
    ⟨"CMD".toList, [], [], [], [], ["a".toList, "".toList, "b:x  y".toList],
      "CMD a  b:x  y".toList⟩ (by decide) (by decide)).2.1

end Irc
